import Mathlib

/-!
# SiteScout crawler core: shallow embedding and verification

Shallow embedding of the crawler engine of the `site_scout` repository
(`site_scout/crawler/crawler.py` together with the alternative modules
`site_scout/crawler/fetcher.py`, `site_scout/crawler/robots.py`,
`site_scout/crawler/link_extractor.py`).

Strings are modelled as `List Char` (`Str`).  The Python standard library
functions used by the code (`urllib.parse.urlparse`, `urlunparse`, `str.strip`,
`str.lower`, `str.partition`, `str.splitlines`) are modelled faithfully after
CPython 3.11 (`Lib/urllib/parse.py`), restricted to ASCII case mapping and
without the IPv6-bracket and non-ASCII-netloc `ValueError` paths (the inputs in
all theorems below stay clear of those).  External collaborators that are not
part of the repository (the network, `BeautifulSoup` parsing, `aiohttp`,
`float()` literal parsing) enter as explicit function parameters.
-/

namespace SiteScout

/-- Python strings, modelled as lists of characters. -/
abbrev Str := List Char

/-- ASCII lower-casing of one character, after Python `str.lower` restricted to
ASCII input (the only case map used by the crawler's URL/robots handling). -/
def lowerC (c : Char) : Char :=
  match c with
  | 'A' => 'a' | 'B' => 'b' | 'C' => 'c' | 'D' => 'd' | 'E' => 'e' | 'F' => 'f'
  | 'G' => 'g' | 'H' => 'h' | 'I' => 'i' | 'J' => 'j' | 'K' => 'k' | 'L' => 'l'
  | 'M' => 'm' | 'N' => 'n' | 'O' => 'o' | 'P' => 'p' | 'Q' => 'q' | 'R' => 'r'
  | 'S' => 's' | 'T' => 't' | 'U' => 'u' | 'V' => 'v' | 'W' => 'w' | 'X' => 'x'
  | 'Y' => 'y' | 'Z' => 'z' | c => c

/-- Python `str.lower` on a whole string (ASCII case map). -/
def lowerS (s : Str) : Str := s.map lowerC

/-- Python whitespace for `str.strip()` (ASCII part). -/
def isSpaceC (c : Char) : Bool :=
  c = ' ' || c = '\t' || c = '\n' || c = '\r' || c = '\x0b' || c = '\x0c'

/-- Python `str.strip()` (strip whitespace at both ends). -/
def pyStrip (s : Str) : Str :=
  ((s.dropWhile isSpaceC).reverse.dropWhile isSpaceC).reverse

/-- Python `path.rstrip("/")`: remove every trailing `'/'`. -/
def rstripSlash (p : Str) : Str :=
  (p.reverse.dropWhile (fun c => c = '/')).reverse

/-- Python `s.startswith(t)` (same as list prefix test). -/
def pyStartsWith (s t : Str) : Bool := t.isPrefixOf s

/-- `needle` occurs as a contiguous substring of `hay` (Python `needle in hay`). -/
def containsSub (hay needle : Str) : Bool :=
  hay.tails.any (fun t => needle.isPrefixOf t)

/-- Python `s.partition(sep)` for a one-character separator: `(before, after)`;
when the separator is absent Python returns `(s, '', '')`, i.e. `after = []`. -/
def pyPartition (c : Char) (s : Str) : Str × Str :=
  match s.dropWhile (fun x => x ≠ c) with
  | _ :: rest => (s.takeWhile (fun x => x ≠ c), rest)
  | [] => (s, [])

/-! ## `urllib.parse` model (CPython 3.11) -/

/-- `_WHATWG_C0_CONTROL_OR_SPACE` membership: code points `0x00`-`0x20`. -/
def isC0OrSpace (c : Char) : Bool := c.toNat ≤ 0x20

/-- `scheme_chars` membership: ASCII letters, digits, `'+'`, `'-'`, `'.'`. -/
def schemeCharB (c : Char) : Bool :=
  c.isAlpha || c.isDigit || c = '+' || c = '-' || c = '.'

/-- The candidate scheme `url[:i]` is accepted: `i > 0`, `url[0]` is an ASCII
letter and every character up to the colon is a scheme character. -/
def isValidSchemeStr (s : Str) : Bool :=
  match s with
  | [] => false
  | c :: _ => c.isAlpha && s.all schemeCharB

/-- `urlsplit` preprocessing: left-strip C0 controls and space, then delete
every tab, CR and LF (`_UNSAFE_URL_BYTES_TO_REMOVE`). -/
def sanitizeUrl (u : Str) : Str :=
  (u.dropWhile isC0OrSpace).filter (fun c => !(c = '\t' || c = '\r' || c = '\n'))

/-- The scheme step of `urlsplit`: split at the first `':'` when the prefix is
a valid scheme, lower-casing the scheme. -/
def splitScheme (u : Str) : Str × Str :=
  match u.dropWhile (fun c => c ≠ ':') with
  | _ :: rest =>
    let pre := u.takeWhile (fun c => c ≠ ':')
    if isValidSchemeStr pre then (lowerS pre, rest) else ([], u)
  | [] => ([], u)

/-- A character ending the netloc region (`_splitnetloc` delimiters). -/
def netlocEndB (c : Char) : Bool := c = '/' || c = '?' || c = '#'

/-- The netloc step of `urlsplit`: when the remainder starts with `"//"`, the
netloc runs to the next `'/'`, `'?'` or `'#'`. -/
def splitNetloc (u : Str) : Str × Str :=
  match u with
  | '/' :: '/' :: rest =>
    (rest.takeWhile (fun c => !netlocEndB c), rest.dropWhile (fun c => !netlocEndB c))
  | _ => ([], u)

/-- `url.split(c, 1)` used for the fragment and query steps: `(before, after)`
with `after = []` when `c` does not occur. -/
def splitOnChar (c : Char) (u : Str) : Str × Str :=
  match u.dropWhile (fun x => x ≠ c) with
  | _ :: rest => (u.takeWhile (fun x => x ≠ c), rest)
  | [] => (u, [])

/-- The last segment of a path: everything after the last `'/'` (the whole
path when it has no `'/'`). -/
def lastSegment (p : Str) : Str := (p.reverse.takeWhile (fun c => c ≠ '/')).reverse

/-- `urlparse`'s params step (`_splitparams`): split the path at the first
`';'` occurring in its last segment; no split when the last segment has no
`';'`. -/
def splitParams (p : Str) : Str × Str :=
  if p.contains ';' then
    if p.contains '/' then
      let seg := lastSegment p
      if seg.contains ';' then
        let pre := p.take (p.length - seg.length)
        let (a, b) := splitOnChar ';' seg
        (pre ++ a, b)
      else (p, [])
    else splitOnChar ';' p
  else (p, [])

/-- Result of `urllib.parse.urlparse`: a six-component named tuple. -/
structure UrlParts where
  scheme : Str
  netloc : Str
  path : Str
  params : Str
  query : Str
  fragment : Str
deriving DecidableEq, Repr

/-- `urllib.parse.urlparse` (CPython 3.11, `allow_fragments=True`). -/
def urlparse (u : Str) : UrlParts :=
  let u0 := sanitizeUrl u
  let (sch, r1) := splitScheme u0
  let (nl, r2) := splitNetloc r1
  let (r3, frag) := splitOnChar '#' r2
  let (r4, q) := splitOnChar '?' r3
  let (p, par) := splitParams r4
  ⟨sch, nl, p, par, q, frag⟩

/-- `uses_netloc` from `urllib.parse` (the schemes for which `urlunsplit`
re-introduces `"//"`). -/
def usesNetlocList : List Str :=
  [[], "ftp".toList, "http".toList, "gopher".toList, "nntp".toList,
   "telnet".toList, "imap".toList, "wais".toList, "file".toList, "mms".toList,
   "https".toList, "shttp".toList, "snews".toList, "prospero".toList,
   "rtsp".toList, "rtsps".toList, "rtspu".toList, "rsync".toList,
   "svn".toList, "svn+ssh".toList, "sftp".toList, "nfs".toList,
   "git".toList, "git+ssh".toList, "ws".toList, "wss".toList]

/-- `urllib.parse.urlunsplit` (CPython 3.11). -/
def urlunsplitM (scheme netloc path query fragment : Str) : Str :=
  let url := path
  let url :=
    if netloc ≠ [] ∨ (scheme ≠ [] ∧ usesNetlocList.contains scheme ∧ url.take 2 ≠ ['/', '/'])
    then ['/', '/'] ++ netloc ++ (if url ≠ [] ∧ url.take 1 ≠ ['/'] then '/' :: url else url)
    else url
  let url := if scheme ≠ [] then scheme ++ ':' :: url else url
  let url := if query ≠ [] then url ++ '?' :: query else url
  if fragment ≠ [] then url ++ '#' :: fragment else url

/-- `urllib.parse.urlunparse`: re-attach params to the path, then unsplit. -/
def urlunparseM (P : UrlParts) : Str :=
  urlunsplitM P.scheme P.netloc
    (if P.params ≠ [] then P.path ++ ';' :: P.params else P.path) P.query P.fragment

/-! ## The two URL canonicalizers of the repository -/

/-- `AsyncCrawler._normalize_url` (`site_scout/crawler/crawler.py`):
lower-case scheme and netloc, drop params/query/fragment, `path or "/"`,
then `path.rstrip("/")`. -/
def normalizeUrlCrawler (u : Str) : Str :=
  let parsed := urlparse u
  let scheme := lowerS parsed.scheme
  let netloc := lowerS parsed.netloc
  let path := if parsed.path = [] then ['/'] else parsed.path
  urlunparseM ⟨scheme, netloc, rstripSlash path, [], [], []⟩

/-- `normalize_url` (`site_scout/crawler/link_extractor.py`): like the crawler
variant but `path.rstrip("/") or "/"`, and the root collapses to the f-string
`f"{scheme}://{netloc}"`. -/
def normalizeUrlExtractor (u : Str) : Str :=
  let parsed := urlparse u
  let scheme := lowerS parsed.scheme
  let netloc := lowerS parsed.netloc
  let path := if rstripSlash parsed.path = [] then ['/'] else rstripSlash parsed.path
  if path = ['/'] then scheme ++ ':' :: '/' :: '/' :: netloc
  else urlunparseM ⟨scheme, netloc, path, [], [], []⟩

/-! ## robots.txt model (`RobotsTxtRules` of `site_scout/crawler/crawler.py`)

The parser stores the directive keyword (`"allow"`/`"disallow"`); we model the
keyword by a two-constructor type.  `float()` literal parsing for
`Crawl-delay` values is an external collaborator and enters as the parameter
`pf`. -/

/-- The keyword of a stored robots directive. -/
inductive DirKind where
  | allow
  | disallow
deriving DecidableEq, Repr

/-- One robots group: `{"agents": [...], "directives": [...], "crawl_delay": ...}`. -/
structure RobotsGroup where
  agents : List Str
  directives : List (DirKind × Str)
  crawlDelay : Option ℚ
deriving DecidableEq, Repr

/-- Apply `f` to the last element of a list (Python mutates `current`, which is
always the group most recently appended to `self._groups`). -/
def modifyLast (f : RobotsGroup → RobotsGroup) : List RobotsGroup → List RobotsGroup
  | [] => []
  | [g] => [f g]
  | g :: gs => g :: modifyLast f gs

/-- Python `str.splitlines` restricted to `\n`, `\r\n` and `\r` terminators
(no trailing empty line; empty interior lines preserved). -/
def pySplitlines : Str → List Str
  | [] => []
  | '\r' :: '\n' :: rest => [] :: pySplitlines rest
  | '\r' :: rest => [] :: pySplitlines rest
  | '\n' :: rest => [] :: pySplitlines rest
  | c :: rest =>
    match pySplitlines rest with
    | [] => [[c]]
    | l :: ls => (c :: l) :: ls

/-- One iteration of `RobotsTxtRules._parse`'s line loop.  The state is the
group list; Python's `current` is always its last element (`none` state -/
def robotsStep (pf : Str → Option ℚ) (groups : List RobotsGroup) (raw : Str) :
    List RobotsGroup :=
  let line := pyStrip (raw.takeWhile (fun c => c ≠ '#'))
  if line = [] then groups
  else
    let kv := pyPartition ':' line
    let key := pyStrip (lowerS kv.1)
    let value := pyStrip kv.2
    if key = "user-agent".toList then
      match groups.getLast? with
      | none => groups ++ [⟨[lowerS value], [], none⟩]
      | some g =>
        if g.agents ≠ [] ∧ (g.directives ≠ [] ∨ g.crawlDelay ≠ none) then
          groups ++ [⟨[lowerS value], [], none⟩]
        else modifyLast (fun h => { h with agents := h.agents ++ [lowerS value] }) groups
    else if key = "allow".toList then
      match groups.getLast? with
      | none => groups ++ [⟨["*".toList], [(DirKind.allow, value)], none⟩]
      | some _ =>
        modifyLast (fun h => { h with directives := h.directives ++ [(DirKind.allow, value)] }) groups
    else if key = "disallow".toList then
      match groups.getLast? with
      | none => groups ++ [⟨["*".toList], [(DirKind.disallow, value)], none⟩]
      | some _ =>
        modifyLast (fun h => { h with directives := h.directives ++ [(DirKind.disallow, value)] }) groups
    else if key = "crawl-delay".toList then
      let upd : RobotsGroup → RobotsGroup := fun h =>
        match pf value with
        | some q => { h with crawlDelay := some q }
        | none => h
      match groups.getLast? with
      | none => groups ++ [upd ⟨["*".toList], [], none⟩]
      | some _ => modifyLast upd groups
    else groups

/-- `RobotsTxtRules._parse`: fold the line loop over `text.splitlines()`. -/
def robotsParse (pf : Str → Option ℚ) (text : Str) : List RobotsGroup :=
  (pySplitlines text).foldl (robotsStep pf) []

/-- `RobotsTxtRules._ua_match`. -/
def uaMatch (ua pattern0 : Str) : Bool :=
  let pat := lowerS pattern0
  if pat = "*".toList then true else pyStartsWith ua pat

/-- `RobotsTxtRules._match_group`: first group with a matching agent, else the
first group containing `"*"`. -/
def matchGroup (groups : List RobotsGroup) (userAgent : Str) : Option RobotsGroup :=
  let ua := lowerS userAgent
  match groups.find? (fun g => g.agents.any (fun a => uaMatch ua a)) with
  | some g => some g
  | none => groups.find? (fun g => g.agents.contains "*".toList)

/-- `RobotsTxtRules.can_fetch`: within the matched group the *last* directive
whose non-empty rule path is a string prefix of `path` decides; default allow. -/
def canFetchGroups (groups : List RobotsGroup) (userAgent path : Str) : Bool :=
  match matchGroup groups userAgent with
  | none => true
  | some g =>
    g.directives.foldl
      (fun allow d => if d.2 ≠ [] ∧ pyStartsWith path d.2 then d.1 = DirKind.allow else allow)
      true

/-- `RobotsTxtRules.crawl_delay`. -/
def crawlDelayGroups (groups : List RobotsGroup) (userAgent : Str) : Option ℚ :=
  match matchGroup groups userAgent with
  | none => none
  | some g => g.crawlDelay

/-! Spec-side robots evaluation (§4.3 of the specification): wildcard matching
with `*` and trailing `$`, longest-rule-length precedence, allow on ties. -/

/-- Rule length per the spec: pattern length after removing `*` and `$`. -/
def ruleLen (pattern : Str) : Nat :=
  (pattern.filter (fun c => !(c = '*' || c = '$'))).length

/-- Does `pattern` (with `*` wildcards) match a prefix of `s`, anchored at the
start?  A `*` consumes an arbitrary portion of `s` (any suffix continues). -/
def starMatchSome : Str → Str → Bool
  | [], _ => true
  | '*' :: ps, s => s.tails.any (fun t => starMatchSome ps t)
  | p :: ps, s =>
    match s with
    | [] => false
    | c :: cs => p = c && starMatchSome ps cs

/-- Does `pattern` (with `*` wildcards) match all of `s`? -/
def starMatchAll : Str → Str → Bool
  | [], s => s.isEmpty
  | '*' :: ps, s => s.tails.any (fun t => starMatchAll ps t)
  | p :: ps, s =>
    match s with
    | [] => false
    | c :: cs => p = c && starMatchAll ps cs

/-- Spec §4.3 step 2: pattern matching with `*` and a trailing `$` anchor. -/
def specPatMatch (path pattern : Str) : Bool :=
  if pattern.getLast? = some '$' then starMatchAll pattern.dropLast path
  else starMatchSome pattern path

/-- Spec §4.3 step 3: among matching directives pick the greatest rule length,
ties broken in favor of allow; allow when nothing matches. -/
def specBestDecision (ds : List (DirKind × Str)) (path : Str) : Bool :=
  let matching := ds.filter (fun d => specPatMatch path d.2)
  if matching.isEmpty then true
  else
    let best := (matching.map (fun d => ruleLen d.2)).foldl max 0
    (matching.filter (fun d => ruleLen d.2 = best)).any (fun d => d.1 = DirKind.allow)

/-- The claim's evaluation procedure: spec steps 1-3 with the code's group
matching. -/
def specCanFetchGroups (groups : List RobotsGroup) (userAgent path : Str) : Bool :=
  match matchGroup groups userAgent with
  | none => true
  | some g => specBestDecision g.directives path

/-- Last-match-wins evaluation, stated directly: the decision of the last
directive whose non-empty rule is a prefix of the path, allow by default. -/
def lastMatchDecision (ds : List (DirKind × Str)) (path : Str) : Bool :=
  match (ds.filter (fun d => !d.2.isEmpty && pyStartsWith path d.2)).getLast? with
  | none => true
  | some d => d.1 = DirKind.allow

/-- Key of a robots line as `_parse` computes it (used to state which line is
the first `User-agent`/`Allow`/`Disallow`/`Crawl-delay` line of a file). -/
def lineKey (raw : Str) : Str :=
  pyStrip (lowerS (pyPartition ':' (pyStrip (raw.takeWhile (fun c => c ≠ '#')))).1)

/-- The keys that `_parse` reacts to. -/
def relevantKeys : List Str :=
  ["user-agent".toList, "allow".toList, "disallow".toList, "crawl-delay".toList]

/-- The first relevant key among a list of lines, if any. -/
def firstRelevantKey (lines : List Str) : Option Str :=
  lines.findSome? (fun l => if lineKey l ∈ relevantKeys then some (lineKey l) else none)

/-! ## Fetch models

One HTTP attempt is an oracle event: a response (status, content type, body),
a timeout, or a transport error (`aiohttp.ClientError`).  A fetch call returns
the result together with the total number of HTTP requests issued.  The
rate-limit / crawl-delay sleeps of both fetchers only delay execution and are
not modelled. -/

/-- Outcome of one HTTP `GET` attempt. -/
inductive HttpEvent where
  | resp (status : Nat) (ctype : Str) (body : Str)
  | timeout
  | connErr
deriving DecidableEq, Repr

/-- Page content of `site_scout/crawler/models.py`: text or bytes. -/
inductive PageContent where
  | text (s : Str)
  | bytes (b : Str)
deriving DecidableEq, Repr

/-- `PageData` of `site_scout/crawler/models.py` (used by `Fetcher.fetch`). -/
structure PageRec where
  url : Str
  content : PageContent
deriving DecidableEq, Repr

/-- `PageData` of `site_scout/crawler/crawler.py` (text content only). -/
structure PageDataM where
  url : Str
  content : Str
deriving DecidableEq, Repr

/-- Python `str.removeprefix`. -/
def pyRemoveStart (s t : Str) : Str := if t.isPrefixOf s then s.drop t.length else s

/-- The retry/backoff loop of `Fetcher.fetch` (`site_scout/crawler/fetcher.py`):
404 is final, statuses in `retryStatus` raise `ClientError`, timeouts return
`None` without retrying, `ClientError` retries while the budget lasts, any
other response dispatches on content type (`html`/`json` → text, else bytes).
`budget` is the number of retries still allowed; the second component of the
result counts requests, with `i` requests already issued. -/
def fetcherLoop (retryStatus : Nat → Bool) (events : Nat → HttpEvent) (url : Str)
    (budget i : Nat) : Option PageRec × Nat :=
  match events i, budget with
  | .timeout, _ => (none, i + 1)
  | .connErr, 0 => (none, i + 1)
  | .connErr, b + 1 => fetcherLoop retryStatus events url b (i + 1)
  | .resp st ct body, 0 =>
    if st = 404 then (none, i + 1)
    else if retryStatus st then (none, i + 1)
    else if containsSub (lowerS ct) "html".toList || containsSub (lowerS ct) "json".toList then
      (some ⟨url, .text body⟩, i + 1)
    else (some ⟨url, .bytes body⟩, i + 1)
  | .resp st ct body, b + 1 =>
    if st = 404 then (none, i + 1)
    else if retryStatus st then fetcherLoop retryStatus events url b (i + 1)
    else if containsSub (lowerS ct) "html".toList || containsSub (lowerS ct) "json".toList then
      (some ⟨url, .text body⟩, i + 1)
    else (some ⟨url, .bytes body⟩, i + 1)

/-- `Fetcher.fetch`: robots gate on `url.removeprefix(base) or "/"`, then the
retry loop with `retry_times` retries. -/
def fetcherFetch (retryStatus : Nat → Bool) (retryTimes : Nat)
    (robots : Option (List RobotsGroup)) (base userAgent : Str)
    (events : Nat → HttpEvent) (url : Str) : Option PageRec × Nat :=
  match robots with
  | some groups =>
    let path0 := pyRemoveStart url base
    let path := if path0 = [] then ['/'] else path0
    if canFetchGroups groups userAgent path then fetcherLoop retryStatus events url retryTimes 0
    else (none, 0)
  | none => fetcherLoop retryStatus events url retryTimes 0

/-- The retry loop of `AsyncCrawler._fetch` (`site_scout/crawler/crawler.py`):
statuses in `_RETRY_STATUS = range(500, 600) + (429,)` raise `ClientError`;
`ClientError` *and* `asyncio.TimeoutError` are caught together and retried
while attempts remain; a 200 response whose content type starts with
`text/html` yields a page; anything else is `None` without retry. -/
def crawlerFetchLoop (events : Nat → HttpEvent) (url : Str) (budget i : Nat) :
    Option PageDataM × Nat :=
  match events i, budget with
  | .timeout, 0 => (none, i + 1)
  | .timeout, b + 1 => crawlerFetchLoop events url b (i + 1)
  | .connErr, 0 => (none, i + 1)
  | .connErr, b + 1 => crawlerFetchLoop events url b (i + 1)
  | .resp st ct body, 0 =>
    if (500 ≤ st ∧ st < 600) ∨ st = 429 then (none, i + 1)
    else if st = 200 ∧ pyStartsWith ct "text/html".toList then (some ⟨url, body⟩, i + 1)
    else (none, i + 1)
  | .resp st ct body, b + 1 =>
    if (500 ≤ st ∧ st < 600) ∨ st = 429 then crawlerFetchLoop events url b (i + 1)
    else if st = 200 ∧ pyStartsWith ct "text/html".toList then (some ⟨url, body⟩, i + 1)
    else (none, i + 1)

/-- `AsyncCrawler._is_allowed`: no rules means allowed, else `can_fetch` on
`urlparse(url).path`. -/
def crawlerIsAllowed (rules : Option (List RobotsGroup)) (userAgent url : Str) : Bool :=
  match rules with
  | none => true
  | some groups => canFetchGroups groups userAgent (urlparse url).path

/-- `AsyncCrawler._fetch`: robots gate, then the retry loop with
`retry_times` retries. -/
def crawlerFetch (rules : Option (List RobotsGroup)) (userAgent : Str) (retryTimes : Nat)
    (events : Nat → HttpEvent) (url : Str) : Option PageDataM × Nat :=
  if crawlerIsAllowed rules userAgent url then crawlerFetchLoop events url retryTimes 0
  else (none, 0)

/-! ## The crawl loop (`AsyncCrawler.crawl` / `AsyncCrawler._worker`)

The worker pool is modelled by sequential processing of the frontier queue;
the claims proved below are invariants of the visited/queue/results state.
Fetching (`_safe_fetch`) and link extraction (`_extract`) enter as oracles:
`fetchO url` is the fetched page content (`none` for any failure, robots
denial or non-HTML response) and `linksO url content` is the list of links
`_extract` produces for that page. -/

/-- Crawl state: the visited set, the frontier queue, the results list, and
the trace of every URL ever put on the queue (in order). -/
structure CrawlState where
  visited : List Str
  queue : List (Str × Nat)
  results : List PageDataM
  enqueued : List Str
deriving Repr

/-- `crawl()` seeding: the root is added to `visited` and enqueued at depth 0. -/
def initCrawl (root : Str) : CrawlState := ⟨[root], [(root, 0)], [], [root]⟩

/-- The admission step of `_worker`: `if link not in self.visited:
self.visited.add(link); await queue.put((link, depth + 1))`. -/
def admitLink (s : CrawlState) (depth : Nat) (link : Str) : CrawlState :=
  if link ∈ s.visited then s
  else { s with
          visited := s.visited ++ [link]
          queue := s.queue ++ [(link, depth)]
          enqueued := s.enqueued ++ [link] }

/-- Admit every extracted link in order. -/
def admitLinks (s : CrawlState) (depth : Nat) (links : List Str) : CrawlState :=
  links.foldl (fun t l => admitLink t depth l) s

/-- One `_worker` loop iteration: pop `(url, depth)`; skip when the depth
exceeds `max_depth` or `len(results) >= max_pages`; otherwise fetch, and on
success append the page to `results` and admit its links at `depth + 1`. -/
def crawlStep (maxDepth maxPages : Nat) (fetchO : Str → Option Str)
    (linksO : Str → Str → List Str) (s : CrawlState) : CrawlState :=
  match s.queue with
  | [] => s
  | (url, depth) :: rest =>
    if maxDepth < depth ∨ maxPages ≤ s.results.length then { s with queue := rest }
    else
      match fetchO url with
      | none => { s with queue := rest }
      | some content =>
        admitLinks { s with queue := rest, results := s.results ++ [⟨url, content⟩] }
          (depth + 1) (linksO url content)

/-- `n` worker iterations from the seeded state. -/
def crawlRun (maxDepth maxPages : Nat) (fetchO : Str → Option Str)
    (linksO : Str → Str → List Str) (root : Str) : Nat → CrawlState
  | 0 => initCrawl root
  | n + 1 => crawlStep maxDepth maxPages fetchO linksO (crawlRun maxDepth maxPages fetchO linksO root n)

/-! ## The concurrent worker pool of `crawl()`

`crawl()` runs `concurrency` copies of `_worker` over one shared queue,
visited set and results list.  Inside one loop iteration the dequeue and the
`depth > max_depth or len(results) >= max_pages` gate run without an
intervening `await`, and so do the return of `_fetch` and
`results.append(page)`; but `await self._fetch(url)` suspends between the
two, so other workers run in between.  The pool state therefore carries, next
to the shared data, the list of `(url, depth)` items whose fetch is currently
awaited (one per busy worker), and a schedule interleaves two kinds of
events. -/

/-- State of the concurrent worker pool: shared visited set, FIFO frontier,
shared results list, and the items whose `_fetch` is currently awaited. -/
structure ConcState where
  visited : List Str
  queue : List (Str × Nat)
  results : List PageDataM
  inflight : List (Str × Nat)
deriving DecidableEq, Repr

/-- One scheduler event: `deq` is an idle worker running the start of the
loop body (dequeue plus gate) up to the `await self._fetch(url)` suspension;
`fin i` is the completion of the `i`-th awaited fetch, running the rest of
the body (append the page, admit its links). -/
inductive WEvent where
  | deq : WEvent
  | fin : Nat → WEvent
deriving DecidableEq, Repr

/-- Admission in the pool state, identical to `admitLink`: `if link not in
self.visited: self.visited.add(link); await queue.put((link, depth + 1))`
(the parameter is the depth being enqueued). -/
def concAdmit (s : ConcState) (depth : Nat) (link : Str) : ConcState :=
  if link ∈ s.visited then s
  else { s with
          visited := s.visited ++ [link]
          queue := s.queue ++ [(link, depth)] }

/-- Admit every extracted link in order. -/
def concAdmits (s : ConcState) (depth : Nat) (links : List Str) : ConcState :=
  links.foldl (fun t l => concAdmit t depth l) s

/-- One scheduler step.  `deq`: pop the FIFO queue; the item is dropped when
`depth > max_depth or len(results) >= max_pages` holds *at this moment*,
otherwise a worker (at most `conc` are busy) starts awaiting its fetch.
`fin i`: the `i`-th awaited fetch returns; a successful page is appended to
`results` — with no re-check of `max_pages` — and its links are admitted at
`depth + 1` when `depth < max_depth`. -/
def concStep (maxDepth maxPages : Nat) (fetchO : Str → Option Str)
    (linksO : Str → Str → List Str) (conc : Nat) (s : ConcState) :
    WEvent → ConcState
  | .deq =>
    match s.queue with
    | [] => s
    | (url, depth) :: rest =>
      if maxDepth < depth ∨ maxPages ≤ s.results.length then { s with queue := rest }
      else if s.inflight.length < conc then
        { s with queue := rest, inflight := s.inflight ++ [(url, depth)] }
      else s
  | .fin i =>
    match s.inflight[i]? with
    | none => s
    | some (url, depth) =>
      let s1 : ConcState := { s with inflight := s.inflight.eraseIdx i }
      match fetchO url with
      | none => s1
      | some content =>
        let s2 : ConcState := { s1 with results := s1.results ++ [⟨url, content⟩] }
        if depth < maxDepth then concAdmits s2 (depth + 1) (linksO url content) else s2

/-- Run a schedule of events through the pool. -/
def concRun (maxDepth maxPages : Nat) (fetchO : Str → Option Str)
    (linksO : Str → Str → List Str) (conc : Nat) :
    List WEvent → ConcState → ConcState
  | [], s => s
  | e :: es, s =>
    concRun maxDepth maxPages fetchO linksO conc es
      (concStep maxDepth maxPages fetchO linksO conc s e)

/-- `crawl()` seeding of the pool state. -/
def concInit (root : Str) : ConcState := ⟨[root], [(root, 0)], [], []⟩

/-- A two-worker schedule: the root is fetched alone; then both workers
dequeue while `results` still holds one page, and both fetches complete. -/
def raceSchedule : List WEvent := [.deq, .fin 0, .deq, .deq, .fin 0, .fin 0]

/-! ## Link extraction (`extract_links` of `site_scout/crawler/link_extractor.py`)

`BeautifulSoup` parsing and `urllib.parse.urljoin` are external collaborators:
the anchors' `href` values arrive as a list and the relative-reference
resolver as a function parameter. -/

/-- `extract_links`: strip each href, drop `mailto:`/`javascript:`, resolve
against the page URL, keep http(s) URLs on the page's host, in document
order.  No de-duplication is performed. -/
def extractLinks (resolver : Str → Str → Str) (pageUrl : Str) (hrefs : List Str) : List Str :=
  let baseNetloc := (urlparse pageUrl).netloc
  hrefs.foldl
    (fun links href =>
      let raw := pyStrip href
      if pyStartsWith raw "mailto:".toList || pyStartsWith raw "javascript:".toList then links
      else
        let absolute := resolver pageUrl raw
        let parsed := urlparse absolute
        if (parsed.scheme = "http".toList ∨ parsed.scheme = "https".toList) ∧
            parsed.netloc = baseNetloc then links ++ [absolute]
        else links)
    []

/-- Spec-side description of admission: keep the first occurrence of each link
not already seen, in order (first-seen de-duplication against `seen`). -/
def firstSeenNew (seen : List Str) : List Str → List Str
  | [] => []
  | l :: ls => if l ∈ seen then firstSeenNew seen ls else l :: firstSeenNew (seen ++ [l]) ls

/-! ## Concrete oracles used by closed counterexample theorems -/

/-- Fetch oracle that succeeds on every URL with content `['c']`. -/
def fetchConst : Str → Option Str := fun _ => some ['c']

/-- Link oracle: the root page `['r']` links to `['a']` and `['b']`;
other pages have no links. -/
def linksRoot : Str → Str → List Str := fun u _ => if u = ['r'] then [['a'], ['b']] else []

/-- Event stream whose first attempt times out and whose second attempt is a
successful `text/html` response. -/
def evTimeoutThenOk : Nat → HttpEvent :=
  fun i => if i = 0 then .timeout else .resp 200 "text/html".toList "b".toList

/-- Event stream that always answers 400 with a `text/html` body. -/
def ev400Html : Nat → HttpEvent := fun _ => .resp 400 "text/html".toList "b".toList

/-- The retryable statuses of `AsyncCrawler._RETRY_STATUS`, as a predicate. -/
def retryStatusMain : Nat → Bool := fun s => (500 ≤ s && s < 600) || s = 429

/-- Event stream of nothing but transport errors. -/
def evErrOnly : Nat → HttpEvent := fun _ => .connErr

/-- Event stream: one transport error, then a timeout forever. -/
def evErrThenTimeout : Nat → HttpEvent := fun i => if i = 0 then .connErr else .timeout

/-- An event that `Fetcher.fetch` retries: a transport error, or a response
whose status is not 404 and is in the retry-status set. -/
def FetcherRetryable (retryStatus : Nat → Bool) (e : HttpEvent) : Prop :=
  e = .connErr ∨ ∃ st ct body, e = .resp st ct body ∧ st ≠ 404 ∧ retryStatus st = true

/-- An event that `AsyncCrawler._fetch` retries: a timeout, a transport error,
or a response with a status in `_RETRY_STATUS`. -/
def CrawlerRetryable (e : HttpEvent) : Prop :=
  e = .timeout ∨ e = .connErr ∨
    ∃ st ct body, e = .resp st ct body ∧ ((500 ≤ st ∧ st < 600) ∨ st = 429)

/-- The implicit group created for directives preceding any `User-agent` line. -/
def gStar : RobotsGroup := ⟨["*".toList], [], none⟩

/-- Crawl-loop invariant: the visited list has no duplicates, the admission
trace coincides with the visited list, no URL occurs twice among results and
frontier together, and every such URL is visited. -/
def CrawlInv (s : CrawlState) : Prop :=
  s.visited.Nodup ∧ s.enqueued = s.visited ∧
    (s.results.map PageDataM.url ++ s.queue.map Prod.fst).Nodup ∧
    ∀ u ∈ s.results.map PageDataM.url ++ s.queue.map Prod.fst, u ∈ s.visited

/-- The path component that `urlsplit` recovers from the URL that
`urlunsplit scheme netloc path [] []` produces (the `'/'`-prepended path when
the netloc branch fires on a relative path). -/
def canonPathAdj (scheme netloc path : Str) : Str :=
  if netloc ≠ [] ∨ (scheme ≠ [] ∧ usesNetlocList.contains scheme ∧ path.take 2 ≠ ['/', '/'])
  then (if path ≠ [] ∧ path.take 1 ≠ ['/'] then '/' :: path else path)
  else path

/-- The path adjustment of `urlunsplit`: a relative path gets a leading slash
when the `//` branch fires. -/
def adjPath (P : Str) : Str :=
  if P ≠ [] ∧ P.take 1 ≠ ['/'] then '/' :: P else P

/-- The body of `urlunsplit` after the scheme prefix: the `//`-branch result
or the bare path. -/
def pathPart (S N P : Str) : Str :=
  if N ≠ [] ∨ (S ≠ [] ∧ usesNetlocList.contains S ∧ P.take 2 ≠ ['/', '/'])
  then '/' :: '/' :: (N ++ adjPath P) else P

/-- The 26 lowercase ASCII letters (the possible proper outputs of `lowerC`). -/
def lcList : List Char :=
  ['a', 'b', 'c', 'd', 'e', 'f', 'g', 'h', 'i', 'j', 'k', 'l', 'm',
   'n', 'o', 'p', 'q', 'r', 's', 't', 'u', 'v', 'w', 'x', 'y', 'z']

/-! ## Theorems -/

/-- Claim C2, counterexample: for the rule set parsed from
`"User-agent: *\nDisallow: /ab\nAllow: /a"` and path `/abc`, `can_fetch`
returns `True` (the last matching directive `Allow: /a` wins), while the
claimed greatest-rule-length evaluation selects `Disallow: /ab` (rule length 3
beats 2) and answers `False`. -/
theorem c2_counterexample_longest_match_fails :
    canFetchGroups
        (robotsParse (fun _ => none) "User-agent: *\nDisallow: /ab\nAllow: /a".toList)
        "bot".toList "/abc".toList = true ∧
      specCanFetchGroups
        (robotsParse (fun _ => none) "User-agent: *\nDisallow: /ab\nAllow: /a".toList)
        "bot".toList "/abc".toList = false := by
  constructor <;> rfl

/-- Claim C3, counterexample: with `max_pages = 1`, a crawl whose root page
links to two fresh URLs admits three URLs to the frontier (`r`, `a`, `b`), so
the number of admitted URLs exceeds `max_pages`; admission is not gated by
`max_pages` at all. -/
theorem c3_counterexample_admissions_exceed_max_pages :
    (crawlRun 1 1 fetchConst linksRoot ['r'] 1).enqueued.length = 3 ∧
      ¬ (crawlRun 1 1 fetchConst linksRoot ['r'] 1).enqueued.length ≤ 1 := by
  constructor <;> decide

/-- Claim C4, counterexample: `AsyncCrawler._fetch` with `retry_times = 1`
whose first attempt times out issues a second HTTP request and returns the
page fetched by it — a timeout is retried, not treated as a final failure. -/
theorem c4_counterexample_crawler_retries_timeout :
    crawlerFetch none "ua".toList 1 evTimeoutThenOk "u".toList =
      (some ⟨"u".toList, "b".toList⟩, 2) := by
  rfl

/-- Claim C6, counterexample: `Fetcher.fetch` on a response with status 400
(a non-429 4xx) and content type `text/html` returns a page record after one
request instead of the claimed `nil`. -/
theorem c6_counterexample_fetcher_4xx_returns_page :
    fetcherFetch retryStatusMain 3 none [] "ua".toList ev400Html "u".toList =
      (some ⟨"u".toList, .text "b".toList⟩, 1) := by
  rfl

/-- Claim C7, counterexample: `_normalize_url` maps the root URL
`http://a.com/` to `http://a.com` — the root does *not* keep its `/` — and
maps `http://a.com/p//` to `http://a.com/p`, stripping *two* trailing slashes
rather than exactly one. -/
theorem c7_counterexample_trailing_slash :
    normalizeUrlCrawler "http://a.com/".toList = "http://a.com".toList ∧
      normalizeUrlCrawler "http://a.com/".toList ≠ "http://a.com/".toList ∧
      normalizeUrlCrawler "http://a.com/p//".toList = "http://a.com/p".toList ∧
      normalizeUrlCrawler "http://a.com/p//".toList ≠ "http://a.com/p/".toList := by
  refine ⟨rfl, by decide, rfl, by decide⟩

/-- Claim C8, counterexample: a page with two identical anchors produces two
identical entries in `extract_links`'s output — the extractor does not
de-duplicate. -/
theorem c8_counterexample_extractor_duplicates :
    ¬ (extractLinks (fun _ h => h) "http://a.com/".toList
        ["http://a.com/x".toList, "http://a.com/x".toList]).Nodup := by
  decide

/-- Claim C9, counterexample: canonicalization is not idempotent.  For
`AsyncCrawler._normalize_url`, `http://h/a;b/` normalizes to `http://h/a;b`,
whose second normalization re-parses `;b` as path parameters and yields
`http://h/a`.  For `normalize_url` of the link extractor, `/` normalizes to
`://`, which re-normalizes to `:`. -/
theorem c9_counterexample_not_idempotent :
    normalizeUrlCrawler (normalizeUrlCrawler "http://h/a;b/".toList) ≠
        normalizeUrlCrawler "http://h/a;b/".toList ∧
      normalizeUrlExtractor (normalizeUrlExtractor "/".toList) ≠
        normalizeUrlExtractor "/".toList := by
  constructor <;> decide

/-! ### C2: robots precedence -/

theorem foldl_decision_eq_getLast (path : Str) (ds : List (DirKind × Str)) (b : Bool) :
    ds.foldl
        (fun (allow : Bool) d =>
          if d.2 ≠ [] ∧ pyStartsWith path d.2 then decide (d.1 = DirKind.allow) else allow)
        b =
      match (ds.filter (fun d => !d.2.isEmpty && pyStartsWith path d.2)).getLast? with
      | none => b
      | some d => decide (d.1 = DirKind.allow) := by
  induction ds generalizing b with
  | nil => rfl
  | cons d ds ih =>
    have hiff : (!d.2.isEmpty && pyStartsWith path d.2) = true ↔
        (d.2 ≠ [] ∧ pyStartsWith path d.2) := by
      simp [List.isEmpty_iff]
    by_cases hb : (!d.2.isEmpty && pyStartsWith path d.2) = true
    · rw [List.foldl_cons, if_pos (hiff.mp hb), ih, List.filter_cons, if_pos hb]
      rcases hfd : (ds.filter (fun d => !d.2.isEmpty && pyStartsWith path d.2)) with _ | ⟨e, es⟩
      · rw [hfd]; simp
      · rw [hfd, List.getLast?_cons_cons]
        rcases hgl : (e :: es).getLast? with _ | x
        · simp at hgl
        · rfl
    · rw [List.foldl_cons, if_neg (fun hc => hb (hiff.mpr hc)), ih, List.filter_cons, if_neg hb]

/-- Claim C2, amended: within the matching group, `can_fetch` is decided by
the *last* directive (in file order) whose non-empty rule path is a string
prefix of the requested path; if no directive matches, the result is allow.
(The greatest-rule-length evaluation of the spec is not what the code does;
see the counterexample.) -/
theorem c2_amended_last_match_wins (groups : List RobotsGroup) (userAgent path : Str) :
    canFetchGroups groups userAgent path =
      match matchGroup groups userAgent with
      | none => true
      | some g => lastMatchDecision g.directives path := by
  unfold canFetchGroups lastMatchDecision
  cases matchGroup groups userAgent with
  | none => rfl
  | some g =>
    simp only
    rw [foldl_decision_eq_getLast]

/-! ### C8 (amended part) and the crawl-state machinery -/

theorem admitLinks_spec (depth : Nat) (links : List Str) (s : CrawlState) :
    (admitLinks s depth links).visited = s.visited ++ firstSeenNew s.visited links ∧
      (admitLinks s depth links).queue =
        s.queue ++ (firstSeenNew s.visited links).map (fun l => (l, depth)) ∧
      (admitLinks s depth links).enqueued = s.enqueued ++ firstSeenNew s.visited links ∧
      (admitLinks s depth links).results = s.results := by
  induction links generalizing s with
  | nil => simp [admitLinks, firstSeenNew]
  | cons l ls ih =>
    by_cases h : l ∈ s.visited
    · have h1 : admitLink s depth l = s := by simp [admitLink, h]
      have h2 : firstSeenNew s.visited (l :: ls) = firstSeenNew s.visited ls := by
        simp [firstSeenNew, h]
      simpa [admitLinks, h1, h2] using ih s
    · have h1 : admitLink s depth l =
          { s with
            visited := s.visited ++ [l]
            queue := s.queue ++ [(l, depth)]
            enqueued := s.enqueued ++ [l] } := by
        simp [admitLink, h]
      have h2 : firstSeenNew s.visited (l :: ls) = l :: firstSeenNew (s.visited ++ [l]) ls := by
        simp [firstSeenNew, h]
      have := ih { s with
            visited := s.visited ++ [l]
            queue := s.queue ++ [(l, depth)]
            enqueued := s.enqueued ++ [l] }
      simp only [admitLinks, List.foldl_cons] at *
      rw [h1]
      rw [h2]
      refine ⟨?_, ?_, ?_, ?_⟩ <;> simp [this.1, this.2.1, this.2.2.1, this.2.2.2]

/-- Claim C8, amended: the extractor emits one entry per qualifying anchor in
document order and performs no de-duplication (see the counterexample);
first-seen-order de-duplication happens at frontier admission instead: the
URLs a worker enqueues from a page's extracted link list are exactly the
first occurrences of links not already in the visited set, in order. -/
theorem c8_amended_dedup_at_admission (resolver : Str → Str → Str) (pageUrl : Str)
    (hrefs : List Str) (depth : Nat) (s : CrawlState) :
    (admitLinks s depth (extractLinks resolver pageUrl hrefs)).enqueued =
        s.enqueued ++ firstSeenNew s.visited (extractLinks resolver pageUrl hrefs) ∧
      (admitLinks s depth (extractLinks resolver pageUrl hrefs)).queue =
        s.queue ++
          (firstSeenNew s.visited (extractLinks resolver pageUrl hrefs)).map
            (fun l => (l, depth)) :=
  ⟨(admitLinks_spec depth _ s).2.2.1, (admitLinks_spec depth _ s).2.1⟩

/-! ### C1 / C3: crawl-loop invariants -/

theorem admitLink_inv {s : CrawlState} (depth : Nat) (l : Str) (h : CrawlInv s) :
    CrawlInv (admitLink s depth l) := by
  obtain ⟨hnd, henq, hcomb, hmem⟩ := h
  by_cases hl : l ∈ s.visited
  · simpa [admitLink, hl] using ⟨hnd, henq, hcomb, hmem⟩
  · have h1 : admitLink s depth l =
        { s with
          visited := s.visited ++ [l]
          queue := s.queue ++ [(l, depth)]
          enqueued := s.enqueued ++ [l] } := by
      simp [admitLink, hl]
    rw [h1]
    have hqmap : ((s.queue ++ [(l, depth)]).map Prod.fst : List Str)
        = s.queue.map Prod.fst ++ [l] := by simp
    refine ⟨?_, ?_, ?_, ?_⟩
    · simp [List.nodup_append, hnd, hl]
    · simp only []
      rw [henq]
    · simp only [hqmap]
      rw [show s.results.map PageDataM.url ++ (s.queue.map Prod.fst ++ [l]) =
            (s.results.map PageDataM.url ++ s.queue.map Prod.fst) ++ [l] from by
          rw [List.append_assoc]]
      rw [List.nodup_append]
      refine ⟨hcomb, by simp, ?_⟩
      intro a ha hamem
      have hav : a ∈ s.visited := hmem a ha
      simp only [List.mem_singleton] at hamem
      exact hl (hamem ▸ hav)
    · intro u hu
      simp only [hqmap] at hu
      rw [show s.results.map PageDataM.url ++ (s.queue.map Prod.fst ++ [l]) =
            (s.results.map PageDataM.url ++ s.queue.map Prod.fst) ++ [l] from by
          rw [List.append_assoc]] at hu
      rcases List.mem_append.mp hu with h1 | h2
      · exact List.mem_append_left _ (hmem u h1)
      · simp only [List.mem_singleton] at h2
        exact List.mem_append_right _ (by simp [h2])

theorem admitLinks_inv (depth : Nat) (links : List Str) {s : CrawlState} (h : CrawlInv s) :
    CrawlInv (admitLinks s depth links) := by
  induction links generalizing s with
  | nil => simpa [admitLinks] using h
  | cons l ls ih =>
    simp only [admitLinks, List.foldl_cons]
    exact ih (admitLink_inv depth l h)

theorem crawlStep_inv (maxDepth maxPages : Nat) (fetchO : Str → Option Str)
    (linksO : Str → Str → List Str) {s : CrawlState} (h : CrawlInv s) :
    CrawlInv (crawlStep maxDepth maxPages fetchO linksO s) := by
  obtain ⟨v, q, res, enq⟩ := s
  obtain ⟨hnd, henq, hcomb, hmem⟩ := h
  rcases q with _ | ⟨⟨url, depth⟩, rest⟩
  · exact ⟨hnd, henq, hcomb, hmem⟩
  · have hcomb' : (res.map PageDataM.url ++ (url :: rest.map Prod.fst)).Nodup := by
      simpa using hcomb
    have hmem' : ∀ u ∈ res.map PageDataM.url ++ (url :: rest.map Prod.fst), u ∈ v := by
      simpa using hmem
    have hsubl : List.Sublist (res.map PageDataM.url ++ rest.map Prod.fst)
        (res.map PageDataM.url ++ (url :: rest.map Prod.fst)) :=
      List.Sublist.append_left (List.sublist_cons_self _ _) _
    simp only [crawlStep]
    by_cases hgate : maxDepth < depth ∨ maxPages ≤ res.length
    · rw [if_pos hgate]
      exact ⟨hnd, henq, hsubl.nodup hcomb', fun u hu => hmem' u (hsubl.subset hu)⟩
    · rw [if_neg hgate]
      rcases fetchO url with _ | content
      · exact ⟨hnd, henq, hsubl.nodup hcomb', fun u hu => hmem' u (hsubl.subset hu)⟩
      · apply admitLinks_inv
        refine ⟨hnd, henq, ?_, ?_⟩
        · simp only [List.map_append, List.map_cons, List.map_nil]
          rw [List.append_assoc]
          simpa using hcomb'
        · intro u hu
          simp only [List.map_append, List.map_cons, List.map_nil] at hu
          rw [List.append_assoc] at hu
          exact hmem' u (by simpa using hu)

theorem crawlRun_inv (maxDepth maxPages : Nat) (fetchO : Str → Option Str)
    (linksO : Str → Str → List Str) (root : Str) (n : Nat) :
    CrawlInv (crawlRun maxDepth maxPages fetchO linksO root n) := by
  induction n with
  | zero =>
    show CrawlInv (initCrawl root)
    refine ⟨by simp [initCrawl], rfl, by simp [initCrawl], ?_⟩
    intro u hu
    simp only [initCrawl, List.map_nil, List.map_cons, List.nil_append, List.map_map] at hu ⊢
    simpa using hu
  | succ n ih => exact crawlStep_inv _ _ _ _ ih

/-- Claim C1: in every crawl run each canonical URL is added to the visited
set at most once (`visited` has no duplicates), the trace of frontier
enqueue events coincides with the visited list — so a URL is enqueued at most
once, and never again after it has been admitted to the visited set — and
each URL contributes at most one entry to the results list whose length is
what the `max_pages` gate counts. -/
theorem c1_admission_unique (maxDepth maxPages : Nat) (fetchO : Str → Option Str)
    (linksO : Str → Str → List Str) (root : Str) (n : Nat) :
    (crawlRun maxDepth maxPages fetchO linksO root n).visited.Nodup ∧
      (crawlRun maxDepth maxPages fetchO linksO root n).enqueued =
        (crawlRun maxDepth maxPages fetchO linksO root n).visited ∧
      (crawlRun maxDepth maxPages fetchO linksO root n).enqueued.Nodup ∧
      ((crawlRun maxDepth maxPages fetchO linksO root n).results.map PageDataM.url).Nodup := by
  obtain ⟨hnd, henq, hcomb, _⟩ := crawlRun_inv maxDepth maxPages fetchO linksO root n
  refine ⟨hnd, henq, henq ▸ hnd, ?_⟩
  exact ((List.sublist_append_left _ _).nodup hcomb)

theorem crawlStep_results_le (maxDepth maxPages : Nat) (fetchO : Str → Option Str)
    (linksO : Str → Str → List Str) (s : CrawlState)
    (h : s.results.length ≤ maxPages) :
    (crawlStep maxDepth maxPages fetchO linksO s).results.length ≤ maxPages := by
  obtain ⟨v, q, res, enq⟩ := s
  rcases q with _ | ⟨⟨url, depth⟩, rest⟩
  · exact h
  · simp only [crawlStep]
    by_cases hgate : maxDepth < depth ∨ maxPages ≤ res.length
    · rw [if_pos hgate]; exact h
    · rw [if_neg hgate]
      rcases fetchO url with _ | content
      · exact h
      · rw [(admitLinks_spec _ _ _).2.2.2]
        push_neg at hgate
        simpa using hgate.2

theorem concStep_deq_full (maxDepth maxPages : Nat) (fetchO : Str → Option Str)
    (linksO : Str → Str → List Str) (conc : Nat) (s : ConcState)
    (h : maxPages ≤ s.results.length) :
    concStep maxDepth maxPages fetchO linksO conc s .deq =
      { s with queue := s.queue.drop 1 } := by
  obtain ⟨v, qu, res, infl⟩ := s
  rcases qu with _ | ⟨⟨url, depth⟩, rest⟩
  · rfl
  · simp only [concStep]
    rw [if_pos (Or.inr h)]
    rfl

/-- Claim C3, amended: `max_pages` gates dequeued URLs against the current
`len(results)` and caps neither admissions nor the results list.  A worker
that dequeues while `len(results) >= max_pages` merely discards the URL; but
the gate check and the `results.append` after the awaited fetch straddle the
`await self._fetch(url)` suspension point, and the append re-checks nothing,
so concurrent workers can drive `len(results)` past `max_pages`: with
`max_pages = 2` and two workers, a root page linking to two URLs yields three
results. -/
theorem c3_amended_gate_races :
    (∀ (maxDepth maxPages : Nat) (fetchO : Str → Option Str)
        (linksO : Str → Str → List Str) (conc : Nat) (s : ConcState),
        maxPages ≤ s.results.length →
        concStep maxDepth maxPages fetchO linksO conc s .deq =
          { s with queue := s.queue.drop 1 }) ∧
      (concRun 1 2 fetchConst linksRoot 2 raceSchedule (concInit ['r'])).results.length = 3 ∧
      2 < (concRun 1 2 fetchConst linksRoot 2 raceSchedule (concInit ['r'])).results.length :=
  ⟨concStep_deq_full, by decide, by decide⟩

/-- Witness for the amended C3 theorem: at a concrete two-result state with
`max_pages = 2`, the dequeue gate only pops the queue. -/
theorem c3_amended_gate_races_witness :
    2 ≤ ([⟨['r'], ['c']⟩, ⟨['a'], ['c']⟩] : List PageDataM).length ∧
    concStep 1 2 fetchConst linksRoot 2
        ⟨[['r']], [(['a'], 1)], [⟨['r'], ['c']⟩, ⟨['a'], ['c']⟩], []⟩ .deq =
      { (⟨[['r']], [(['a'], 1)], [⟨['r'], ['c']⟩, ⟨['a'], ['c']⟩], []⟩ : ConcState) with
          queue := ([(['a'], 1)] : List (Str × Nat)).drop 1 } :=
  ⟨by decide, c3_amended_gate_races.1 1 2 fetchConst linksRoot 2 _ (by decide)⟩

/-! ### C4 / C5 / C6: fetch retry behavior -/

theorem fetcherLoop_req_le (rs : Nat → Bool) (events : Nat → HttpEvent) (url : Str) :
    ∀ (budget i : Nat), (fetcherLoop rs events url budget i).2 ≤ i + budget + 1 := by
  intro budget
  induction budget with
  | zero =>
    intro i
    rw [fetcherLoop.eq_def]
    generalize events i = e
    cases e with
    | timeout => simp
    | connErr => simp
    | resp st ct body =>
      simp only []
      split_ifs <;> simp
  | succ b ih =>
    intro i
    rw [fetcherLoop.eq_def]
    generalize events i = e
    cases e with
    | timeout => simp
    | connErr => simpa using le_trans (ih (i + 1)) (by omega)
    | resp st ct body =>
      simp only []
      split_ifs <;> first
        | simp
        | simpa using le_trans (ih (i + 1)) (by omega)

theorem crawlerFetchLoop_req_le (events : Nat → HttpEvent) (url : Str) :
    ∀ (budget i : Nat), (crawlerFetchLoop events url budget i).2 ≤ i + budget + 1 := by
  intro budget
  induction budget with
  | zero =>
    intro i
    rw [crawlerFetchLoop.eq_def]
    generalize events i = e
    cases e with
    | timeout => simp
    | connErr => simp
    | resp st ct body =>
      simp only []
      split_ifs <;> simp
  | succ b ih =>
    intro i
    rw [crawlerFetchLoop.eq_def]
    generalize events i = e
    cases e with
    | timeout => simpa using le_trans (ih (i + 1)) (by omega)
    | connErr => simpa using le_trans (ih (i + 1)) (by omega)
    | resp st ct body =>
      simp only []
      split_ifs <;> first
        | simp
        | simpa using le_trans (ih (i + 1)) (by omega)

theorem fetcherLoop_none_of_retryable (rs : Nat → Bool) (events : Nat → HttpEvent) (url : Str)
    (h : ∀ j, FetcherRetryable rs (events j)) :
    ∀ (budget i : Nat), (fetcherLoop rs events url budget i).1 = none := by
  intro budget
  induction budget with
  | zero =>
    intro i
    have hi := h i
    rw [fetcherLoop.eq_def]
    generalize hev : events i = e
    rw [hev] at hi
    cases e with
    | timeout => rfl
    | connErr => rfl
    | resp st ct body =>
      simp only []
      rcases hi with hc | ⟨st', ct', body', heq, h404, hrs⟩
      · exact absurd hc (by simp)
      · obtain ⟨hst, _, _⟩ := HttpEvent.resp.inj heq
        subst hst
        rw [if_neg h404, if_pos hrs]
  | succ b ih =>
    intro i
    have hi := h i
    rw [fetcherLoop.eq_def]
    generalize hev : events i = e
    rw [hev] at hi
    cases e with
    | timeout => rfl
    | connErr => exact ih (i + 1)
    | resp st ct body =>
      simp only []
      rcases hi with hc | ⟨st', ct', body', heq, h404, hrs⟩
      · exact absurd hc (by simp)
      · obtain ⟨hst, _, _⟩ := HttpEvent.resp.inj heq
        subst hst
        rw [if_neg h404, if_pos hrs]
        exact ih (i + 1)

theorem crawlerFetchLoop_none_of_retryable (events : Nat → HttpEvent) (url : Str)
    (h : ∀ j, CrawlerRetryable (events j)) :
    ∀ (budget i : Nat), (crawlerFetchLoop events url budget i).1 = none := by
  intro budget
  induction budget with
  | zero =>
    intro i
    have hi := h i
    rw [crawlerFetchLoop.eq_def]
    generalize hev : events i = e
    rw [hev] at hi
    cases e with
    | timeout => rfl
    | connErr => rfl
    | resp st ct body =>
      simp only []
      rcases hi with hc | hc | ⟨st', ct', body', heq, hretry⟩
      · exact absurd hc (by simp)
      · exact absurd hc (by simp)
      · obtain ⟨hst, _, _⟩ := HttpEvent.resp.inj heq
        subst hst
        rw [if_pos hretry]
  | succ b ih =>
    intro i
    have hi := h i
    rw [crawlerFetchLoop.eq_def]
    generalize hev : events i = e
    rw [hev] at hi
    cases e with
    | timeout => exact ih (i + 1)
    | connErr => exact ih (i + 1)
    | resp st ct body =>
      simp only []
      rcases hi with hc | hc | ⟨st', ct', body', heq, hretry⟩
      · exact absurd hc (by simp)
      · exact absurd hc (by simp)
      · obtain ⟨hst, _, _⟩ := HttpEvent.resp.inj heq
        subst hst
        rw [if_pos hretry]
        exact ih (i + 1)

/-- Claim C5: both fetch implementations issue at most `retry_times + 1` HTTP
requests per call, and return `nil` once the retry budget is exhausted (every
attempt hitting a retryable outcome). -/
theorem c5_attempts_bounded :
    (∀ (rs : Nat → Bool) (retryTimes : Nat) (robots : Option (List RobotsGroup))
        (base userAgent : Str) (events : Nat → HttpEvent) (url : Str),
        (fetcherFetch rs retryTimes robots base userAgent events url).2 ≤ retryTimes + 1 ∧
          ((∀ j, FetcherRetryable rs (events j)) →
            (fetcherFetch rs retryTimes robots base userAgent events url).1 = none)) ∧
      ∀ (rules : Option (List RobotsGroup)) (userAgent : Str) (retryTimes : Nat)
          (events : Nat → HttpEvent) (url : Str),
        (crawlerFetch rules userAgent retryTimes events url).2 ≤ retryTimes + 1 ∧
          ((∀ j, CrawlerRetryable (events j)) →
            (crawlerFetch rules userAgent retryTimes events url).1 = none) := by
  constructor
  · intro rs retryTimes robots base userAgent events url
    unfold fetcherFetch
    rcases robots with _ | groups
    · exact ⟨by simpa using fetcherLoop_req_le rs events url retryTimes 0,
        fun h => fetcherLoop_none_of_retryable rs events url h retryTimes 0⟩
    · simp only []
      by_cases hcf : canFetchGroups groups userAgent
          (if pyRemoveStart url base = [] then ['/'] else pyRemoveStart url base) = true
      · rw [if_pos hcf]
        exact ⟨by simpa using fetcherLoop_req_le rs events url retryTimes 0,
          fun h => fetcherLoop_none_of_retryable rs events url h retryTimes 0⟩
      · rw [if_neg hcf]
        exact ⟨by simp, fun _ => rfl⟩
  · intro rules userAgent retryTimes events url
    unfold crawlerFetch
    by_cases hal : crawlerIsAllowed rules userAgent url = true
    · rw [if_pos hal]
      exact ⟨by simpa using crawlerFetchLoop_req_le events url retryTimes 0,
        fun h => crawlerFetchLoop_none_of_retryable events url h retryTimes 0⟩
    · rw [if_neg hal]
      exact ⟨by simp, fun _ => rfl⟩

/-- Claim C5, witness: with two retries allowed and an event stream of nothing
but transport errors, both fetchers stop within 3 requests and return `nil`. -/
theorem c5_attempts_bounded_witness :
    (fetcherFetch retryStatusMain 2 none [] "ua".toList evErrOnly "u".toList).2 ≤ 3 ∧
      (fetcherFetch retryStatusMain 2 none [] "ua".toList evErrOnly "u".toList).1 = none ∧
      (crawlerFetch none "ua".toList 2 evErrOnly "u".toList).2 ≤ 3 ∧
      (crawlerFetch none "ua".toList 2 evErrOnly "u".toList).1 = none :=
  ⟨(c5_attempts_bounded.1 retryStatusMain 2 none [] "ua".toList evErrOnly "u".toList).1,
    (c5_attempts_bounded.1 retryStatusMain 2 none [] "ua".toList evErrOnly "u".toList).2
      (fun _ => Or.inl rfl),
    (c5_attempts_bounded.2 none "ua".toList 2 evErrOnly "u".toList).1,
    (c5_attempts_bounded.2 none "ua".toList 2 evErrOnly "u".toList).2
      (fun _ => Or.inr (Or.inl rfl))⟩

theorem fetcherLoop_timeout_stops (rs : Nat → Bool) (events : Nat → HttpEvent) (url : Str) :
    ∀ (k budget i : Nat), k ≤ budget →
      (∀ j, j < k → FetcherRetryable rs (events (i + j))) →
      events (i + k) = .timeout →
      fetcherLoop rs events url budget i = (none, i + k + 1) := by
  intro k
  induction k with
  | zero =>
    intro budget i _ _ hto
    have hev : events i = HttpEvent.timeout := by simpa using hto
    rw [fetcherLoop.eq_def, hev]
  | succ k ih =>
    intro budget i hk hretry hto
    rcases budget with _ | b
    · omega
    have h0 := hretry 0 (by omega)
    simp only [Nat.add_zero] at h0
    have heq : fetcherLoop rs events url b (i + 1) = (none, (i + 1) + k + 1) := by
      refine ih b (i + 1) (by omega) ?_ ?_
      · intro j hj
        have hh := hretry (j + 1) (by omega)
        have harith : i + (j + 1) = i + 1 + j := by omega
        rwa [harith] at hh
      · have harith : i + (k + 1) = i + 1 + k := by omega
        rwa [harith] at hto
    rw [fetcherLoop.eq_def]
    generalize hev : events i = e
    rw [hev] at h0
    cases e with
    | timeout =>
      rcases h0 with hc | ⟨st', ct', body', hc, _, _⟩ <;> exact absurd hc (by simp)
    | connErr =>
      simp only []
      rw [heq]
      exact congrArg (Prod.mk none) (by omega)
    | resp st ct body =>
      simp only []
      rcases h0 with hc | ⟨st', ct', body', hc, h404, hrs⟩
      · exact absurd hc (by simp)
      · obtain ⟨hst, _, _⟩ := HttpEvent.resp.inj hc
        subst hst
        rw [if_neg h404, if_pos hrs, heq]
        exact congrArg (Prod.mk none) (by omega)

/-- Claim C4, amended: `Fetcher.fetch` treats a timeout as a final failure —
when the `k`-th attempt (after `k` retryable outcomes, `k ≤ retry_times`)
times out, it returns `nil` having issued exactly `k + 1` requests, issuing no
retry after the timeout.  `AsyncCrawler._fetch`, by contrast, catches
`asyncio.TimeoutError` together with `ClientError` and retries timeouts (see
the counterexample). -/
theorem c4_amended_fetcher_timeout_final (rs : Nat → Bool) (retryTimes : Nat)
    (base userAgent : Str) (events : Nat → HttpEvent) (url : Str) (k : Nat)
    (hk : k ≤ retryTimes)
    (hretry : ∀ j, j < k → FetcherRetryable rs (events j))
    (hto : events k = .timeout) :
    fetcherFetch rs retryTimes none base userAgent events url = (none, k + 1) := by
  unfold fetcherFetch
  have := fetcherLoop_timeout_stops rs events url k retryTimes 0 hk
    (fun j hj => by simpa using hretry j hj) (by simpa using hto)
  simpa using this

/-- Claim C4 witness: after one transport error, the second attempt's timeout
ends the `Fetcher.fetch` call at exactly 2 requests with result `nil`. -/
theorem c4_amended_fetcher_timeout_final_witness :
    (1 ≤ 1 ∧ (∀ j, j < 1 → FetcherRetryable retryStatusMain (evErrThenTimeout j)) ∧
        evErrThenTimeout 1 = .timeout) ∧
      fetcherFetch retryStatusMain 1 none [] "ua".toList evErrThenTimeout "u".toList =
        (none, 2) := by
  refine ⟨⟨le_refl 1, ?_, rfl⟩, ?_⟩
  · intro j hj
    interval_cases j
    exact Or.inl rfl
  · exact c4_amended_fetcher_timeout_final retryStatusMain 1 [] "ua".toList evErrThenTimeout
      "u".toList 1 (le_refl 1) (fun j hj => by interval_cases j; exact Or.inl rfl) rfl

/-- Claim C6, amended: a 404 is a final failure with no retry in *both*
fetchers, and `AsyncCrawler._fetch` returns `nil` after exactly one request
for every non-429 4xx status; but in `Fetcher.fetch` a non-404, non-retryable
status (including 4xx other than 404/429) falls through to content-type
dispatch and yields a page record for that URL (see the counterexample). -/
theorem c6_amended_4xx_handling :
    (∀ (st : Nat) (ct body : Str) (userAgent : Str) (retryTimes : Nat)
        (events : Nat → HttpEvent) (url : Str),
        400 ≤ st → st < 500 → st ≠ 429 → events 0 = .resp st ct body →
        crawlerFetch none userAgent retryTimes events url = (none, 1)) ∧
      (∀ (rs : Nat → Bool) (retryTimes : Nat) (base userAgent : Str)
          (events : Nat → HttpEvent) (url : Str) (ct body : Str),
          events 0 = .resp 404 ct body →
          fetcherFetch rs retryTimes none base userAgent events url = (none, 1)) ∧
      ∀ (rs : Nat → Bool) (retryTimes : Nat) (base userAgent : Str)
          (events : Nat → HttpEvent) (url : Str) (st : Nat) (ct body : Str),
          events 0 = .resp st ct body → rs st = false → st ≠ 404 →
          ∃ pg, (fetcherFetch rs retryTimes none base userAgent events url).1 = some pg ∧
            pg.url = url := by
  refine ⟨?_, ?_, ?_⟩
  · intro st ct body userAgent retryTimes events url h400 h500 h429 hev
    unfold crawlerFetch
    rw [if_pos (show crawlerIsAllowed none userAgent url = true from rfl)]
    rw [crawlerFetchLoop.eq_def, hev]
    cases retryTimes with
    | zero =>
      simp only []
      rw [if_neg (by omega), if_neg (by rintro ⟨h200, _⟩; omega)]
    | succ b =>
      simp only []
      rw [if_neg (by omega), if_neg (by rintro ⟨h200, _⟩; omega)]
  · intro rs retryTimes base userAgent events url ct body hev
    unfold fetcherFetch
    rw [fetcherLoop.eq_def, hev]
    cases retryTimes with
    | zero => simp
    | succ b => simp
  · intro rs retryTimes base userAgent events url st ct body hev hrs h404
    unfold fetcherFetch
    rw [fetcherLoop.eq_def, hev]
    cases retryTimes with
    | zero =>
      simp only []
      rw [if_neg h404, if_neg (by simp [hrs])]
      by_cases hct : (containsSub (lowerS ct) "html".toList ||
          containsSub (lowerS ct) "json".toList) = true
      · rw [if_pos hct]
        exact ⟨⟨url, .text body⟩, rfl, rfl⟩
      · rw [if_neg hct]
        exact ⟨⟨url, .bytes body⟩, rfl, rfl⟩
    | succ b =>
      simp only []
      rw [if_neg h404, if_neg (by simp [hrs])]
      by_cases hct : (containsSub (lowerS ct) "html".toList ||
          containsSub (lowerS ct) "json".toList) = true
      · rw [if_pos hct]
        exact ⟨⟨url, .text body⟩, rfl, rfl⟩
      · rw [if_neg hct]
        exact ⟨⟨url, .bytes body⟩, rfl, rfl⟩

/-- Claim C6 witness: concrete instances of the three amended statements —
a 403 HTML response makes `_fetch` return `nil` after one request, a 404 makes
`Fetcher.fetch` return `nil` after one request, and a 400 HTML response makes
`Fetcher.fetch` return a page record. -/
theorem c6_amended_4xx_handling_witness :
    crawlerFetch none "ua".toList 3 (fun _ => .resp 403 "text/html".toList "b".toList)
        "u".toList = (none, 1) ∧
      fetcherFetch retryStatusMain 3 none [] "ua".toList
        (fun _ => .resp 404 "text/html".toList "b".toList) "u".toList = (none, 1) ∧
      ∃ pg, (fetcherFetch retryStatusMain 3 none [] "ua".toList ev400Html "u".toList).1 =
          some pg ∧ pg.url = "u".toList :=
  ⟨c6_amended_4xx_handling.1 403 "text/html".toList "b".toList "ua".toList 3 _ "u".toList
      (by omega) (by omega) (by omega) rfl,
    c6_amended_4xx_handling.2.1 retryStatusMain 3 [] "ua".toList _ "u".toList
      "text/html".toList "b".toList rfl,
    c6_amended_4xx_handling.2.2 retryStatusMain 3 [] "ua".toList ev400Html "u".toList
      400 "text/html".toList "b".toList rfl (by decide) (by omega)⟩

/-! ### C10: leading robots directives form an implicit `*` group -/

theorem robotsStep_of_irrelevant (pf : Str → Option ℚ) (groups : List RobotsGroup) (raw : Str)
    (h : lineKey raw ∉ relevantKeys) : robotsStep pf groups raw = groups := by
  simp only [lineKey] at h
  simp only [relevantKeys, List.mem_cons, List.not_mem_nil, or_false] at h
  push_neg at h
  obtain ⟨h1, h2, h3, h4⟩ := h
  simp only [robotsStep]
  by_cases hline : pyStrip (List.takeWhile (fun c => c ≠ '#') raw) = []
  · rw [if_pos hline]
  · rw [if_neg hline, if_neg h1, if_neg h2, if_neg h3, if_neg h4]

theorem robotsStep_star_directive (pf : Str → Option ℚ) (raw : Str)
    (hmem : lineKey raw ∈ relevantKeys) (hua : lineKey raw ≠ "user-agent".toList) :
    robotsStep pf [gStar] raw = robotsStep pf [] raw := by
  have hline : pyStrip (List.takeWhile (fun c => c ≠ '#') raw) ≠ [] := by
    intro hl
    rw [show lineKey raw = [] from by simp only [lineKey, hl]; rfl] at hmem
    exact absurd hmem (by decide)
  simp only [lineKey] at hmem hua
  simp only [relevantKeys, List.mem_cons, List.not_mem_nil, or_false] at hmem
  simp only [robotsStep]
  rw [if_neg hline, if_neg hline]
  rcases hmem with hk | hk | hk | hk
  · exact absurd hk hua
  · rw [if_neg hua, if_neg hua, if_pos hk, if_pos hk]
    rfl
  · have hnal : pyStrip (lowerS (pyPartition ':'
        (pyStrip (List.takeWhile (fun c => c ≠ '#') raw))).1) ≠ "allow".toList := by
      rw [hk]; decide
    rw [if_neg hua, if_neg hua, if_neg hnal, if_neg hnal, if_pos hk, if_pos hk]
    rfl
  · have hnal : pyStrip (lowerS (pyPartition ':'
        (pyStrip (List.takeWhile (fun c => c ≠ '#') raw))).1) ≠ "allow".toList := by
      rw [hk]; decide
    have hndis : pyStrip (lowerS (pyPartition ':'
        (pyStrip (List.takeWhile (fun c => c ≠ '#') raw))).1) ≠ "disallow".toList := by
      rw [hk]; decide
    rw [if_neg hua, if_neg hua, if_neg hnal, if_neg hnal, if_neg hndis, if_neg hndis,
      if_pos hk, if_pos hk]
    rfl

theorem foldl_robotsStep_star (pf : Str → Option ℚ) :
    ∀ (lines : List Str), firstRelevantKey lines ≠ none →
      firstRelevantKey lines ≠ some "user-agent".toList →
      lines.foldl (robotsStep pf) [gStar] = lines.foldl (robotsStep pf) [] := by
  intro lines
  induction lines with
  | nil => intro h _; exact absurd rfl h
  | cons l ls ih =>
    intro h1 h2
    by_cases hrel : lineKey l ∈ relevantKeys
    · have hfk : firstRelevantKey (l :: ls) = some (lineKey l) := by
        unfold firstRelevantKey
        rw [List.findSome?_cons, if_pos hrel]
      have hua : lineKey l ≠ "user-agent".toList := by
        intro hc
        exact h2 (by rw [hfk, hc])
      simp only [List.foldl_cons]
      rw [robotsStep_star_directive pf l hrel hua]
    · have hfk : firstRelevantKey (l :: ls) = firstRelevantKey ls := by
        simp [firstRelevantKey, List.findSome?_cons, hrel]
      simp only [List.foldl_cons]
      rw [robotsStep_of_irrelevant pf [gStar] l hrel, robotsStep_of_irrelevant pf [] l hrel]
      exact ih (hfk ▸ h1) (hfk ▸ h2)

theorem pySplitlines_cons_other (c : Char) (rest : Str)
    (h1 : c ≠ '\r') (h2 : c ≠ '\n') :
    pySplitlines (c :: rest) =
      match pySplitlines rest with
      | [] => [[c]]
      | l :: ls => (c :: l) :: ls := by
  rw [pySplitlines.eq_def]
  split
  · simp_all
  · simp_all
  · simp_all
  · simp_all
  · rename_i c' rest' hne1 hne2 hne3 heq
    obtain ⟨hc, hr⟩ := List.cons.inj heq
    subst hc; subst hr; rfl

theorem pySplitlines_append_line (l : Str) (text : Str)
    (h : ∀ c ∈ l, c ≠ '\n' ∧ c ≠ '\r') :
    pySplitlines (l ++ '\n' :: text) = l :: pySplitlines text := by
  induction l with
  | nil => rfl
  | cons c l ih =>
    have hc := h c (by simp)
    have hrest : ∀ x ∈ l, x ≠ '\n' ∧ x ≠ '\r' := fun x hx => h x (by simp [hx])
    show pySplitlines (c :: (l ++ '\n' :: text)) = (c :: l) :: pySplitlines text
    rw [pySplitlines_cons_other c _ hc.2 hc.1, ih hrest]

theorem robotsStep_uaStar (pf : Str → Option ℚ) :
    robotsStep pf [] "User-agent: *".toList = [gStar] := rfl

/-- Claim C10: every `Allow`, `Disallow` or `Crawl-delay` line occurring
before any `User-agent` line attaches to an implicit group whose agent list is
`["*"]`: parsing such a file produces exactly the same group list as parsing
it with an explicit `User-agent: *` line prepended, so the leading directives
apply to every user agent rather than being discarded. -/
theorem c10_leading_directives_implicit_star (pf : Str → Option ℚ) (text : Str)
    (h1 : firstRelevantKey (pySplitlines text) ≠ none)
    (h2 : firstRelevantKey (pySplitlines text) ≠ some "user-agent".toList) :
    robotsParse pf ("User-agent: *".toList ++ '\n' :: text) = robotsParse pf text := by
  unfold robotsParse
  rw [pySplitlines_append_line "User-agent: *".toList text (by decide)]
  simp only [List.foldl_cons]
  rw [robotsStep_uaStar]
  exact foldl_robotsStep_star pf _ h1 h2

/-- Claim C10 witness: a robots file starting with `Disallow: /x` parses to
the same groups as the same file with `User-agent: *` prepended. -/
theorem c10_leading_directives_implicit_star_witness :
    (firstRelevantKey (pySplitlines "Disallow: /x\nUser-agent: A\nAllow: /y".toList) ≠ none ∧
        firstRelevantKey (pySplitlines "Disallow: /x\nUser-agent: A\nAllow: /y".toList) ≠
          some "user-agent".toList) ∧
      robotsParse (fun _ => none)
          ("User-agent: *".toList ++ '\n' :: "Disallow: /x\nUser-agent: A\nAllow: /y".toList) =
        robotsParse (fun _ => none) "Disallow: /x\nUser-agent: A\nAllow: /y".toList :=
  ⟨⟨by decide, by decide⟩,
    c10_leading_directives_implicit_star (fun _ => none)
      "Disallow: /x\nUser-agent: A\nAllow: /y".toList (by decide) (by decide)⟩

/-! ### C7 / C9: URL canonicalization — character and list toolbox -/

theorem lowerC_eq_or_mem (c : Char) : lowerC c = c ∨ lowerC c ∈ lcList := by
  unfold lowerC
  split <;> first | (left; rfl) | (right; decide)

theorem lowerC_of_mem {d : Char} (h : d ∈ lcList) : lowerC d = d := by
  fin_cases h <;> rfl

theorem lowerC_idem (c : Char) : lowerC (lowerC c) = lowerC c := by
  rcases lowerC_eq_or_mem c with h | h
  · rw [h, h]
  · exact lowerC_of_mem h

theorem lowerC_ne {c x : Char} (hx : x ∉ lcList) (hcx : c ≠ x) : lowerC c ≠ x := by
  rcases lowerC_eq_or_mem c with h | h
  · rw [h]; exact hcx
  · intro he; exact hx (he ▸ h)

theorem lowerS_idem (s : Str) : lowerS (lowerS s) = lowerS s := by
  simp only [lowerS, List.map_map]
  exact List.map_congr_left (fun c _ => lowerC_idem c)

theorem not_mem_lowerS {x : Char} {s : Str} (hx : x ∉ lcList) (hxs : x ∉ s) :
    x ∉ lowerS s := by
  intro hmem
  obtain ⟨c, hc, hcx⟩ := List.mem_map.mp hmem
  exact lowerC_ne hx (fun he => hxs (he ▸ hc)) hcx

theorem lcList_alpha : ∀ d ∈ lcList, d.isAlpha = true := by decide

theorem lcList_schemeChar : ∀ d ∈ lcList, schemeCharB d = true := by decide

theorem lowerC_alpha {c : Char} (h : c.isAlpha = true) : (lowerC c).isAlpha = true := by
  rcases lowerC_eq_or_mem c with he | he
  · rw [he]; exact h
  · exact lcList_alpha _ he

theorem lowerC_schemeChar {c : Char} (h : schemeCharB c = true) :
    schemeCharB (lowerC c) = true := by
  rcases lowerC_eq_or_mem c with he | he
  · rw [he]; exact h
  · exact lcList_schemeChar _ he

theorem isValidSchemeStr_lowerS {s : Str} (h : isValidSchemeStr s = true) :
    isValidSchemeStr (lowerS s) = true := by
  rcases s with _ | ⟨c, t⟩
  · exact absurd h (by decide)
  · simp only [lowerS, List.map_cons]
    simp only [isValidSchemeStr, Bool.and_eq_true, List.all_eq_true] at h ⊢
    refine ⟨lowerC_alpha h.1, ?_⟩
    intro x hx
    rcases List.mem_cons.mp hx with he | ht
    · exact he ▸ lowerC_schemeChar (h.2 c (by simp))
    · obtain ⟨y, hy, hxy⟩ := List.mem_map.mp ht
      exact hxy ▸ lowerC_schemeChar (h.2 y (by simp [hy]))

theorem schemeCharB_ne {c : Char} (h : schemeCharB c = true) :
    c ≠ ':' ∧ c ≠ '/' ∧ c ≠ '?' ∧ c ≠ '#' ∧ c ≠ ';' ∧ c ≠ '\t' ∧ c ≠ '\r' ∧ c ≠ '\n' := by
  refine ⟨?_, ?_, ?_, ?_, ?_, ?_, ?_, ?_⟩ <;> (rintro rfl; revert h; decide)

theorem alpha_not_c0 {c : Char} (h : c.isAlpha = true) : isC0OrSpace c = false := by
  simp only [Char.isAlpha, Char.isUpper, Char.isLower, Bool.or_eq_true, Bool.and_eq_true,
    decide_eq_true_eq] at h
  unfold isC0OrSpace
  rw [decide_eq_false_iff_not]
  intro hc
  simp only [Char.toNat] at hc
  rcases h with ⟨h1, _⟩ | ⟨h1, _⟩ <;>
    · have h2 : (65 : Nat) ≤ c.val.toNat ∨ (97 : Nat) ≤ c.val.toNat := by
        first
          | exact Or.inl h1
          | exact Or.inr h1
      omega

/-! takeWhile / dropWhile helpers -/

theorem tw_append_all {q : Char → Bool} {l₁ : Str} (l₂ : Str)
    (h : ∀ c ∈ l₁, q c = true) :
    (l₁ ++ l₂).takeWhile q = l₁ ++ l₂.takeWhile q := by
  induction l₁ with
  | nil => simp
  | cons c l ih =>
    rw [List.cons_append, List.takeWhile_cons, if_pos (h c (by simp)),
      ih (fun x hx => h x (by simp [hx])), List.cons_append]

theorem dw_append_all {q : Char → Bool} {l₁ : Str} (l₂ : Str)
    (h : ∀ c ∈ l₁, q c = true) :
    (l₁ ++ l₂).dropWhile q = l₂.dropWhile q := by
  induction l₁ with
  | nil => simp
  | cons c l ih =>
    rw [List.cons_append, List.dropWhile_cons, if_pos (h c (by simp))]
    exact ih (fun x hx => h x (by simp [hx]))

theorem tw_cons_false {q : Char → Bool} {c : Char} (l : Str) (h : q c = false) :
    (c :: l).takeWhile q = [] := by
  simp [List.takeWhile_cons, h]

theorem dw_cons_false {q : Char → Bool} {c : Char} (l : Str) (h : q c = false) :
    (c :: l).dropWhile q = c :: l := by
  simp [List.dropWhile_cons, h]

theorem mem_of_takeWhile {q : Char → Bool} {c : Char} {l : Str}
    (h : c ∈ l.takeWhile q) : c ∈ l ∧ q c = true := by
  induction l with
  | nil => simp at h
  | cons d t ih =>
    rw [List.takeWhile_cons] at h
    by_cases hq : q d = true
    · rw [if_pos hq] at h
      rcases List.mem_cons.mp h with he | ht
      · exact ⟨by simp [he], he ▸ hq⟩
      · obtain ⟨h1, h2⟩ := ih ht
        exact ⟨by simp [h1], h2⟩
    · rw [if_neg hq] at h
      simp at h

theorem mem_of_dropWhile {q : Char → Bool} {c : Char} {l : Str}
    (h : c ∈ l.dropWhile q) : c ∈ l := by
  induction l with
  | nil => simp at h
  | cons d t ih =>
    rw [List.dropWhile_cons] at h
    by_cases hq : q d = true
    · rw [if_pos hq] at h
      exact List.mem_cons_of_mem _ (ih h)
    · rw [if_neg hq] at h
      exact h

theorem dropWhile_head_false {q : Char → Bool} {l : Str} {c : Char} {t : Str}
    (h : l.dropWhile q = c :: t) : q c = false := by
  induction l with
  | nil => simp at h
  | cons d r ih =>
    rw [List.dropWhile_cons] at h
    by_cases hq : q d = true
    · rw [if_pos hq] at h
      exact ih h
    · rw [if_neg hq] at h
      obtain ⟨h1, _⟩ := List.cons.inj h
      rw [← h1]
      exact Bool.eq_false_iff.mpr hq

/-! rstripSlash facts -/

theorem rstripSlash_getLast? (p : Str) : (rstripSlash p).getLast? ≠ some '/' := by
  unfold rstripSlash
  rw [List.getLast?_reverse]
  intro h
  rcases hd : (p.reverse.dropWhile (fun c => c = '/')) with _ | ⟨c, t⟩
  · rw [hd] at h; simp at h
  · rw [hd] at h
    simp only [List.head?_cons, Option.some.injEq] at h
    have := dropWhile_head_false hd
    rw [h] at this
    simp at this

theorem rstripSlash_eq_self {p : Str} (h : p.getLast? ≠ some '/') : rstripSlash p = p := by
  unfold rstripSlash
  rcases hr : p.reverse with _ | ⟨c, t⟩
  · have : p = [] := by simpa using congrArg List.reverse hr
    simp [this]
  · have hc : c ≠ '/' := by
      intro hce
      apply h
      rw [← List.head?_reverse, hr, hce]
      rfl
    rw [dw_cons_false t (by simp [hc]), ← hr, List.reverse_reverse]

theorem rstripSlash_idem (p : Str) : rstripSlash (rstripSlash p) = rstripSlash p :=
  rstripSlash_eq_self (rstripSlash_getLast? p)

theorem rstripSlash_pre (p : Str) : ∃ t, p = rstripSlash p ++ t := by
  refine ⟨(p.reverse.takeWhile (fun c => c = '/')).reverse, ?_⟩
  unfold rstripSlash
  rw [← List.reverse_append, List.takeWhile_append_dropWhile, List.reverse_reverse]

theorem rstripSlash_head {p : Str} (h : rstripSlash p ≠ []) :
    (rstripSlash p).head? = p.head? := by
  obtain ⟨t, ht⟩ := rstripSlash_pre p
  rcases hq : rstripSlash p with _ | ⟨c, r⟩
  · exact absurd hq h
  · rw [ht, hq]
    rfl

theorem rstripSlash_nil_or_slash : rstripSlash [] = [] ∧ rstripSlash ['/'] = [] := by
  constructor <;> rfl

/-! splitOnChar / splitParams / splitScheme / splitNetloc / sanitize facts -/

theorem splitOnChar_none {x : Char} {u : Str} (h : x ∉ u) : splitOnChar x u = (u, []) := by
  unfold splitOnChar
  have hd : u.dropWhile (fun c => c ≠ x) = [] := by
    rw [List.dropWhile_eq_nil_iff]
    intro c hc
    exact decide_eq_true (fun he => h (he ▸ hc))
  rw [hd]

theorem splitParams_no_semi {p : Str} (h : ';' ∉ p) : splitParams p = (p, []) := by
  unfold splitParams
  rw [if_neg]
  intro hc
  exact h (by simpa using hc)

theorem valid_all {S : Str} (h : isValidSchemeStr S = true) :
    ∀ c ∈ S, schemeCharB c = true := by
  rcases S with _ | ⟨a, t⟩
  · simp
  · simp only [isValidSchemeStr, Bool.and_eq_true, List.all_eq_true] at h
    exact h.2

theorem splitScheme_accept {S : Str} (rest : Str) (hS : isValidSchemeStr S = true) :
    splitScheme (S ++ ':' :: rest) = (lowerS S, rest) := by
  have hne : ∀ c ∈ S, (decide (c ≠ ':')) = true :=
    fun c hc => decide_eq_true (schemeCharB_ne (valid_all hS c hc)).1
  simp only [splitScheme]
  rw [dw_append_all _ hne, dw_cons_false _ (by simp)]
  simp only []
  rw [tw_append_all _ hne, tw_cons_false _ (by simp), List.append_nil, if_pos hS]

theorem splitScheme_reject_head {P : Str} {c : Char} (hd : P.head? = some c)
    (hc : c.isAlpha = false) : splitScheme P = ([], P) := by
  rcases P with _ | ⟨a, t⟩
  · simp at hd
  · have hac : c = a := by
      have := hd
      simp only [List.head?_cons, Option.some.injEq] at this
      exact this.symm
    subst hac
    by_cases hcc : c = ':'
    · subst hcc
      simp only [splitScheme]
      rw [dw_cons_false t (by simp)]
      simp only []
      rw [tw_cons_false t (by simp), if_neg (by decide)]
    · simp only [splitScheme]
      rw [List.dropWhile_cons, if_pos (by simp [hcc])]
      rcases hdd : t.dropWhile (fun x => x ≠ ':') with _ | ⟨d, r⟩
      · rfl
      · simp only []
        simp [List.takeWhile_cons, isValidSchemeStr, hcc, hc]

theorem splitScheme_reject_pre {P t : Str} (hv : splitScheme (P ++ t) = ([], P ++ t)) :
    splitScheme P = ([], P) := by
  rcases hd : P.dropWhile (fun c => c ≠ ':') with _ | ⟨c, rest⟩
  · simp only [splitScheme]
    rw [hd]
  · have hc : c = ':' := by
      have := dropWhile_head_false hd
      simpa using this
    subst hc
    have hP : P = P.takeWhile (fun c => c ≠ ':') ++ ':' :: rest := by
      conv_lhs => rw [← List.takeWhile_append_dropWhile (fun c => decide (c ≠ ':')) P]
      rw [hd]
    have htw : ∀ x ∈ P.takeWhile (fun c => c ≠ ':'), (decide (x ≠ ':')) = true :=
      fun x hx => (mem_of_takeWhile hx).2
    have hvdw : (P ++ t).dropWhile (fun c => c ≠ ':') = ':' :: (rest ++ t) := by
      conv_lhs => rw [hP]
      rw [List.append_assoc, List.cons_append, dw_append_all _ htw, dw_cons_false _ (by simp)]
    have hvtw : (P ++ t).takeWhile (fun c => c ≠ ':') = P.takeWhile (fun c => c ≠ ':') := by
      conv_lhs => rw [hP]
      rw [List.append_assoc, List.cons_append, tw_append_all _ htw, tw_cons_false _ (by simp),
        List.append_nil]
    have hinv : isValidSchemeStr ((P ++ t).takeWhile (fun c => c ≠ ':')) = false := by
      by_contra hcon
      rw [Bool.not_eq_false] at hcon
      have hev : splitScheme (P ++ t) =
          (lowerS ((P ++ t).takeWhile (fun c => c ≠ ':')), rest ++ t) := by
        simp only [splitScheme]
        rw [hvdw]
        simp only []
        rw [if_pos hcon]
      rw [hev] at hv
      obtain ⟨h1, _⟩ := Prod.mk.inj hv
      rcases htww : (P ++ t).takeWhile (fun c => c ≠ ':') with _ | ⟨a, b⟩
      · rw [htww] at hcon
        exact absurd hcon (by decide)
      · rw [htww] at h1
        simp [lowerS] at h1
    rw [hvtw] at hinv
    simp only [splitScheme]
    rw [hd]
    simp only []
    rw [if_neg (by simpa [ne_eq, decide_not] using hinv)]

theorem splitNetloc_netloc {N P : Str} (hN : ∀ c ∈ N, netlocEndB c = false)
    (hP : P = [] ∨ P.head? = some '/') :
    splitNetloc ('/' :: '/' :: (N ++ P)) = (N, P) := by
  have hN' : ∀ c ∈ N, (!netlocEndB c) = true := fun c hc => by simp [hN c hc]
  simp only [splitNetloc]
  rcases hP with rfl | hP
  · rw [List.append_nil, List.takeWhile_eq_self_iff.mpr hN',
      List.dropWhile_eq_nil_iff.mpr hN']
  · rcases P with _ | ⟨c, r⟩
    · simp at hP
    · obtain rfl : c = '/' := by simpa using hP
      rw [tw_append_all _ hN', tw_cons_false _ (by decide), List.append_nil,
        dw_append_all _ hN', dw_cons_false _ (by decide)]

theorem splitNetloc_no_slashes {u : Str} (h : u.take 2 ≠ ['/', '/']) :
    splitNetloc u = ([], u) := by
  rw [splitNetloc.eq_def]
  split
  · exact absurd rfl h
  · rfl

theorem sanitizeUrl_eq_self {u : Str}
    (hhead : ∀ c, u.head? = some c → isC0OrSpace c = false)
    (hclean : ∀ c ∈ u, c ≠ '\t' ∧ c ≠ '\r' ∧ c ≠ '\n') :
    sanitizeUrl u = u := by
  unfold sanitizeUrl
  have hdw : u.dropWhile isC0OrSpace = u := by
    rcases u with _ | ⟨c, t⟩
    · rfl
    · exact dw_cons_false t (hhead c rfl)
  rw [hdw, List.filter_eq_self.mpr]
  intro c hc
  obtain ⟨h1, h2, h3⟩ := hclean c hc
  simp [h1, h2, h3]

theorem mem_sanitizeUrl {c : Char} {u : Str} (h : c ∈ sanitizeUrl u) : c ∈ u := by
  unfold sanitizeUrl at h
  exact mem_of_dropWhile (List.mem_of_mem_filter h)

theorem sanitizeUrl_head {u : Str} {c : Char} (h : (sanitizeUrl u).head? = some c) :
    isC0OrSpace c = false := by
  unfold sanitizeUrl at h
  rcases hd : u.dropWhile isC0OrSpace with _ | ⟨a, t⟩
  · rw [hd] at h; simp at h
  · rw [hd] at h
    have ha : isC0OrSpace a = false := dropWhile_head_false hd
    have h1 : a ≠ '\t' := fun he => absurd (he ▸ ha) (by decide)
    have h2 : a ≠ '\r' := fun he => absurd (he ▸ ha) (by decide)
    have h3 : a ≠ '\n' := fun he => absurd (he ▸ ha) (by decide)
    rw [List.filter_cons, if_pos (by simp [h1, h2, h3])] at h
    simp only [List.head?_cons, Option.some.injEq] at h
    rw [← h]
    exact ha

theorem urlparse_parts (u : Str) :
    urlparse u =
      ⟨(splitScheme (sanitizeUrl u)).1,
        (splitNetloc (splitScheme (sanitizeUrl u)).2).1,
        (splitParams (splitOnChar '?'
          (splitOnChar '#' (splitNetloc (splitScheme (sanitizeUrl u)).2).2).1).1).1,
        (splitParams (splitOnChar '?'
          (splitOnChar '#' (splitNetloc (splitScheme (sanitizeUrl u)).2).2).1).1).2,
        (splitOnChar '?' (splitOnChar '#' (splitNetloc (splitScheme (sanitizeUrl u)).2).2).1).2,
        (splitOnChar '#' (splitNetloc (splitScheme (sanitizeUrl u)).2).2).2⟩ := by
  unfold urlparse
  simp only []

/-! Further split lemmas used for the canonicalization round trip -/

theorem splitOnChar_fst_cases (c0 : Char) (x : Str) :
    (splitOnChar c0 x).1 = x ∨ (splitOnChar c0 x).1 = x.takeWhile (fun y => y ≠ c0) := by
  rcases hd : x.dropWhile (fun y => y ≠ c0) with _ | ⟨a, b⟩
  · left
    simp only [splitOnChar]
    rw [hd]
  · right
    simp only [splitOnChar]
    rw [hd]

theorem splitOnChar_fst_pre (c0 : Char) (x : Str) : ∃ t, x = (splitOnChar c0 x).1 ++ t := by
  rcases splitOnChar_fst_cases c0 x with h | h
  · exact ⟨[], by rw [h, List.append_nil]⟩
  · refine ⟨x.dropWhile (fun y => y ≠ c0), ?_⟩
    rw [h, List.takeWhile_append_dropWhile]

theorem splitOnChar_fst_sub (c0 : Char) (x : Str) : ∀ c ∈ (splitOnChar c0 x).1, c ∈ x := by
  obtain ⟨t, ht⟩ := splitOnChar_fst_pre c0 x
  intro c hc
  rw [ht]
  simp [hc]

theorem splitOnChar_fst_no (c0 : Char) (x : Str) : c0 ∉ (splitOnChar c0 x).1 := by
  rcases hd : x.dropWhile (fun y => y ≠ c0) with _ | ⟨a, b⟩
  · have hall := List.dropWhile_eq_nil_iff.mp hd
    simp only [splitOnChar]
    rw [hd]
    intro hmem
    have := hall _ hmem
    simp at this
  · simp only [splitOnChar]
    rw [hd]
    simp only []
    intro hmem
    have := (mem_of_takeWhile hmem).2
    simp at this

theorem splitOnChar_head (c0 : Char) (t : Str) : splitOnChar c0 (c0 :: t) = ([], t) := by
  simp only [splitOnChar]
  rw [dw_cons_false t (by simp)]
  simp only []
  rw [tw_cons_false t (by simp)]

theorem splitOnChar_fst_head (c0 d : Char) (t : Str) (hd : d ≠ c0) :
    ∃ r, (splitOnChar c0 (d :: t)).1 = d :: r := by
  rcases splitOnChar_fst_cases c0 (d :: t) with h | h
  · exact ⟨t, h⟩
  · rw [h, List.takeWhile_cons, if_pos (by simp [hd])]
    exact ⟨_, rfl⟩

theorem splitNetloc_fst_no_end (x : Str) : ∀ c ∈ (splitNetloc x).1, netlocEndB c = false := by
  rw [splitNetloc.eq_def]
  split
  · intro c hc
    simpa using (mem_of_takeWhile hc).2
  · intro c hc
    simp at hc

theorem splitNetloc_mem (x : Str) :
    (∀ c ∈ (splitNetloc x).1, c ∈ x) ∧ (∀ c ∈ (splitNetloc x).2, c ∈ x) := by
  rw [splitNetloc.eq_def]
  split
  · constructor
    · intro c hc
      have := (mem_of_takeWhile hc).1
      simp [this]
    · intro c hc
      have := mem_of_dropWhile hc
      simp [this]
  · constructor
    · intro c hc
      simp at hc
    · exact fun c hc => hc

theorem splitNetloc_fst_ne {x : Str} (h : (splitNetloc x).1 ≠ []) :
    (splitNetloc x).2 = [] ∨ ∃ d t, (splitNetloc x).2 = d :: t ∧ netlocEndB d = true := by
  revert h
  rw [splitNetloc.eq_def]
  split
  · rename_i rest
    intro _
    rcases hd : rest.dropWhile (fun c => !netlocEndB c) with _ | ⟨d, t⟩
    · left
      simpa using hd
    · right
      refine ⟨d, t, by simpa using hd, ?_⟩
      have := dropWhile_head_false hd
      simpa using this
  · intro h
    exact absurd rfl h

theorem splitNetloc_cases (x : Str) :
    splitNetloc x = ([], x) ∨
    ∃ rest, x = '/' :: '/' :: rest ∧
      splitNetloc x =
        (rest.takeWhile (fun c => !netlocEndB c), rest.dropWhile (fun c => !netlocEndB c)) := by
  rcases x with _ | ⟨a, _ | ⟨b, rest⟩⟩
  · left; rfl
  · left
    by_cases ha : a = '/'
    · subst ha; rfl
    · exact splitNetloc_no_slashes (by simp [List.take, ha])
  · by_cases ha : a = '/'
    · subst ha
      by_cases hb : b = '/'
      · subst hb
        right
        exact ⟨rest, rfl, rfl⟩
      · left
        refine splitNetloc_no_slashes ?_
        intro he
        rw [List.take_succ_cons] at he
        obtain ⟨-, h2⟩ := List.cons.inj he
        rw [List.take_succ_cons] at h2
        obtain ⟨h3, -⟩ := List.cons.inj h2
        exact hb h3
    · left
      refine splitNetloc_no_slashes ?_
      intro he
      rw [List.take_succ_cons] at he
      obtain ⟨h3, -⟩ := List.cons.inj he
      exact ha h3

theorem splitScheme_cases (x : Str) :
    splitScheme x = ([], x) ∨
    ∃ pre rest, x = pre ++ ':' :: rest ∧ isValidSchemeStr pre = true ∧
      splitScheme x = (lowerS pre, rest) := by
  rcases hd : x.dropWhile (fun c => c ≠ ':') with _ | ⟨c, rest⟩
  · left
    simp only [splitScheme]
    rw [hd]
  · by_cases hv : isValidSchemeStr (x.takeWhile (fun c => c ≠ ':')) = true
    · right
      have hc : c = ':' := by simpa using dropWhile_head_false hd
      refine ⟨x.takeWhile (fun c => c ≠ ':'), rest, ?_, hv, ?_⟩
      · conv_lhs => rw [← List.takeWhile_append_dropWhile (fun c => decide (c ≠ ':')) x]
        rw [hd, hc]
      · simp only [splitScheme]
        rw [hd]
        simp only []
        rw [if_pos hv]
    · left
      simp only [splitScheme]
      rw [hd]
      simp only []
      rw [if_neg hv]

theorem splitScheme_snd_sub (x : Str) : ∀ c ∈ (splitScheme x).2, c ∈ x := by
  rcases splitScheme_cases x with h | ⟨pre, rest, hx, -, h⟩
  · rw [h]
    exact fun c hc => hc
  · rw [h]
    intro c hc
    rw [hx]
    simp [hc]

theorem valid_head {S : Str} (h : isValidSchemeStr S = true) :
    ∃ c t, S = c :: t ∧ c.isAlpha = true := by
  rcases S with _ | ⟨c, t⟩
  · exact absurd h (by decide)
  · simp only [isValidSchemeStr, Bool.and_eq_true] at h
    exact ⟨c, t, rfl, h.1⟩

theorem schemeStr_clean {S : Str} (h : isValidSchemeStr S = true) :
    ∀ c ∈ S, c ≠ '\t' ∧ c ≠ '\r' ∧ c ≠ '\n' := by
  intro c hc
  obtain ⟨-, -, -, -, -, h6, h7, h8⟩ := schemeCharB_ne (valid_all h c hc)
  exact ⟨h6, h7, h8⟩

theorem sanitizeUrl_clean {c : Char} {u : Str} (h : c ∈ sanitizeUrl u) :
    c ≠ '\t' ∧ c ≠ '\r' ∧ c ≠ '\n' := by
  unfold sanitizeUrl at h
  have h2 := List.of_mem_filter h
  refine ⟨?_, ?_, ?_⟩ <;> (rintro rfl; simp at h2)

theorem lcList_netlocEnd : ∀ d ∈ lcList, netlocEndB d = false := by decide

theorem lcList_clean : ∀ d ∈ lcList, d ≠ '\t' ∧ d ≠ '\r' ∧ d ≠ '\n' := by decide

theorem lowerS_netlocEnd {s : Str} (h : ∀ c ∈ s, netlocEndB c = false) :
    ∀ c ∈ lowerS s, netlocEndB c = false := by
  intro c hc
  obtain ⟨d, hd, hdc⟩ := List.mem_map.mp hc
  rcases lowerC_eq_or_mem d with he | he
  · rw [← hdc, he]
    exact h d hd
  · rw [← hdc]
    exact lcList_netlocEnd _ he

theorem lowerS_clean {s : Str} (h : ∀ c ∈ s, c ≠ '\t' ∧ c ≠ '\r' ∧ c ≠ '\n') :
    ∀ c ∈ lowerS s, c ≠ '\t' ∧ c ≠ '\r' ∧ c ≠ '\n' := by
  intro c hc
  obtain ⟨d, hd, hdc⟩ := List.mem_map.mp hc
  rcases lowerC_eq_or_mem d with he | he
  · rw [← hdc, he]
    exact h d hd
  · rw [← hdc]
    exact lcList_clean _ he

theorem mem_rstripSlash {c : Char} {p : Str} (h : c ∈ rstripSlash p) : c ∈ p := by
  obtain ⟨t, ht⟩ := rstripSlash_pre p
  rw [ht]
  simp [h]

/-! Structure of `urlunsplit` with empty query and fragment -/

theorem urlunsplit_empty (S N P : Str) :
    urlunsplitM S N P [] [] =
      if S ≠ [] then S ++ ':' :: pathPart S N P else pathPart S N P := by
  unfold urlunsplitM pathPart adjPath
  rw [if_neg (fun h => h rfl), if_neg (fun h => h rfl)]
  rfl

theorem adjPath_nil_or_slash (P : Str) : adjPath P = [] ∨ (adjPath P).head? = some '/' := by
  unfold adjPath
  split
  · right; rfl
  · rename_i h
    rcases P with _ | ⟨c, t⟩
    · left; rfl
    · right
      push_neg at h
      have h2 := h (by simp)
      have hc : c = '/' := by simpa [List.take] using h2
      simp [hc]

theorem mem_adjPath {c : Char} {P : Str} (h : c ∈ adjPath P) : c = '/' ∨ c ∈ P := by
  unfold adjPath at h
  split at h
  · rcases List.mem_cons.mp h with he | hm
    · exact Or.inl he
    · exact Or.inr hm
  · exact Or.inr h

theorem adjPath_not_mem {c : Char} {P : Str} (hc : c ≠ '/') (hP : c ∉ P) : c ∉ adjPath P := by
  intro h
  rcases mem_adjPath h with he | hm
  · exact hc he
  · exact hP hm

theorem rstripSlash_ite (p : Str) :
    rstripSlash (if p = [] then ['/'] else p) = rstripSlash p := by
  split
  · rename_i h
    rw [h]
    rfl
  · rfl

theorem normalizeUrlCrawler_eq (u : Str) :
    normalizeUrlCrawler u =
      urlunsplitM (lowerS (urlparse u).scheme) (lowerS (urlparse u).netloc)
        (rstripSlash (urlparse u).path) [] [] := by
  show urlunsplitM (lowerS (urlparse u).scheme) (lowerS (urlparse u).netloc)
      (rstripSlash (if (urlparse u).path = [] then ['/'] else (urlparse u).path)) [] [] =
    urlunsplitM (lowerS (urlparse u).scheme) (lowerS (urlparse u).netloc)
      (rstripSlash (urlparse u).path) [] []
  rw [rstripSlash_ite]

theorem unsplit_canonAdj (S N P : Str) (hP : rstripSlash P = P) :
    urlunsplitM S N (rstripSlash (canonPathAdj S N P)) [] [] = urlunsplitM S N P [] [] := by
  unfold canonPathAdj
  by_cases hcond : N ≠ [] ∨ (S ≠ [] ∧ usesNetlocList.contains S = true ∧ P.take 2 ≠ ['/', '/'])
  · rw [if_pos hcond]
    by_cases hadj : P ≠ [] ∧ P.take 1 ≠ ['/']
    · rw [if_pos hadj]
      have hlast : P.getLast? ≠ some '/' := hP ▸ rstripSlash_getLast? P
      have hlast2 : ('/' :: P).getLast? ≠ some '/' := by
        rcases P with _ | ⟨c, t⟩
        · exact absurd rfl hadj.1
        · rwa [List.getLast?_cons_cons]
      rw [rstripSlash_eq_self hlast2]
      rw [urlunsplit_empty, urlunsplit_empty]
      have hpp : pathPart S N ('/' :: P) = pathPart S N P := by
        unfold pathPart
        have hcond2 : N ≠ [] ∨
            (S ≠ [] ∧ usesNetlocList.contains S = true ∧ ('/' :: P).take 2 ≠ ['/', '/']) := by
          rcases hcond with h | ⟨h1, h2, h3⟩
          · exact Or.inl h
          · refine Or.inr ⟨h1, h2, ?_⟩
            intro he
            rw [List.take_succ_cons] at he
            obtain ⟨-, h4⟩ := List.cons.inj he
            exact hadj.2 h4
        rw [if_pos hcond2, if_pos hcond]
        have ha1 : adjPath ('/' :: P) = '/' :: P := by
          unfold adjPath
          rw [if_neg]
          simp [List.take_succ_cons]
        have ha2 : adjPath P = '/' :: P := by
          unfold adjPath
          rw [if_pos hadj]
        rw [ha1, ha2]
      rw [hpp]
    · rw [if_neg hadj, hP]
  · rw [if_neg hcond, hP]

/-! Round trip: parsing the output of `urlunsplit` recovers the components -/

theorem urlparse_unsplit (S N P : Str) (hSl : lowerS S = S)
    (hSv : S = [] ∨ isValidSchemeStr S = true)
    (hN : ∀ c ∈ N, netlocEndB c = false)
    (hNc : ∀ c ∈ N, c ≠ '\t' ∧ c ≠ '\r' ∧ c ≠ '\n')
    (hPc : ∀ c ∈ P, c ≠ '\t' ∧ c ≠ '\r' ∧ c ≠ '\n')
    (hPh : '#' ∉ P) (hPq : '?' ∉ P) (hPs : ';' ∉ P)
    (hslash : N = [] → P.take 2 ≠ ['/', '/'])
    (hP4 : N = [] → S = [] → splitScheme P = ([], P) ∧
      ∀ c, P.head? = some c → isC0OrSpace c = false) :
    urlparse (urlunsplitM S N P [] []) = ⟨S, N, canonPathAdj S N P, [], [], []⟩ := by
  rw [urlunsplit_empty]
  by_cases hcond : N ≠ [] ∨ (S ≠ [] ∧ usesNetlocList.contains S = true ∧ P.take 2 ≠ ['/', '/'])
  · have hpp : pathPart S N P = '/' :: '/' :: (N ++ adjPath P) := by
      unfold pathPart
      rw [if_pos hcond]
    have hnl : splitNetloc ('/' :: '/' :: (N ++ adjPath P)) = (N, adjPath P) :=
      splitNetloc_netloc hN (adjPath_nil_or_slash P)
    have hF : splitOnChar '#' (adjPath P) = (adjPath P, []) :=
      splitOnChar_none (adjPath_not_mem (by decide) hPh)
    have hQ : splitOnChar '?' (adjPath P) = (adjPath P, []) :=
      splitOnChar_none (adjPath_not_mem (by decide) hPq)
    have hPar : splitParams (adjPath P) = (adjPath P, []) :=
      splitParams_no_semi (adjPath_not_mem (by decide) hPs)
    have hcanon : canonPathAdj S N P = adjPath P := by
      unfold canonPathAdj adjPath
      rw [if_pos hcond]
    by_cases hS : S = []
    · subst hS
      rw [if_neg (fun h => h rfl), hpp]
      have hsan : sanitizeUrl ('/' :: '/' :: (N ++ adjPath P)) =
          '/' :: '/' :: (N ++ adjPath P) := by
        refine sanitizeUrl_eq_self ?_ ?_
        · intro c hc
          simp only [List.head?_cons, Option.some.injEq] at hc
          rw [← hc]
          decide
        · intro c hc
          simp only [List.mem_cons, List.mem_append] at hc
          rcases hc with hc | hc | hc | hc
          · subst hc; exact ⟨by decide, by decide, by decide⟩
          · subst hc; exact ⟨by decide, by decide, by decide⟩
          · exact hNc c hc
          · rcases mem_adjPath hc with hc | hc
            · subst hc; exact ⟨by decide, by decide, by decide⟩
            · exact hPc c hc
      have hsch : splitScheme ('/' :: '/' :: (N ++ adjPath P)) =
          ([], '/' :: '/' :: (N ++ adjPath P)) :=
        splitScheme_reject_head rfl (by decide)
      rw [urlparse_parts, hsan]
      simp [hsch, hnl, hF, hQ, hPar, hcanon]
    · rw [if_pos hS, hpp]
      have hSv2 : isValidSchemeStr S = true := hSv.resolve_left hS
      have hsch := splitScheme_accept ('/' :: '/' :: (N ++ adjPath P)) hSv2
      rw [hSl] at hsch
      have hsan : sanitizeUrl (S ++ ':' :: '/' :: '/' :: (N ++ adjPath P)) =
          S ++ ':' :: '/' :: '/' :: (N ++ adjPath P) := by
        refine sanitizeUrl_eq_self ?_ ?_
        · intro c hc
          obtain ⟨c0, t0, hSe, hal⟩ := valid_head hSv2
          rw [hSe, List.cons_append, List.head?_cons] at hc
          simp only [Option.some.injEq] at hc
          exact hc ▸ alpha_not_c0 hal
        · intro c hc
          simp only [List.mem_append, List.mem_cons] at hc
          rcases hc with hc | hc | hc | hc | hc
          · exact schemeStr_clean hSv2 c hc
          · subst hc; exact ⟨by decide, by decide, by decide⟩
          · subst hc; exact ⟨by decide, by decide, by decide⟩
          · subst hc; exact ⟨by decide, by decide, by decide⟩
          · rcases hc with hc | hc
            · exact hNc c hc
            · rcases mem_adjPath hc with hc | hc
              · subst hc; exact ⟨by decide, by decide, by decide⟩
              · exact hPc c hc
      rw [urlparse_parts, hsan]
      simp [hsch, hnl, hF, hQ, hPar, hcanon]
  · have hpp : pathPart S N P = P := by
      unfold pathPart
      rw [if_neg hcond]
    have hcanon : canonPathAdj S N P = P := by
      unfold canonPathAdj
      rw [if_neg hcond]
    have hNnil : N = [] := by
      by_contra hne
      exact hcond (Or.inl hne)
    subst hNnil
    have hnl : splitNetloc P = ([], P) := splitNetloc_no_slashes (hslash rfl)
    have hF : splitOnChar '#' P = (P, []) := splitOnChar_none hPh
    have hQ : splitOnChar '?' P = (P, []) := splitOnChar_none hPq
    have hPar : splitParams P = (P, []) := splitParams_no_semi hPs
    by_cases hS : S = []
    · subst hS
      rw [if_neg (fun h => h rfl), hpp]
      obtain ⟨hsch, hc0⟩ := hP4 rfl rfl
      have hsan : sanitizeUrl P = P :=
        sanitizeUrl_eq_self (fun c hc => hc0 c hc) (fun c hc => hPc c hc)
      rw [urlparse_parts, hsan]
      simp [hsch, hnl, hF, hQ, hPar, hcanon]
    · rw [if_pos hS, hpp]
      have hSv2 : isValidSchemeStr S = true := hSv.resolve_left hS
      have hsch := splitScheme_accept P hSv2
      rw [hSl] at hsch
      have hsan : sanitizeUrl (S ++ ':' :: P) = S ++ ':' :: P := by
        refine sanitizeUrl_eq_self ?_ ?_
        · intro c hc
          obtain ⟨c0, t0, hSe, hal⟩ := valid_head hSv2
          rw [hSe, List.cons_append, List.head?_cons] at hc
          simp only [Option.some.injEq] at hc
          exact hc ▸ alpha_not_c0 hal
        · intro c hc
          simp only [List.mem_append, List.mem_cons] at hc
          rcases hc with hc | hc | hc
          · exact schemeStr_clean hSv2 c hc
          · subst hc; exact ⟨by decide, by decide, by decide⟩
          · exact hPc c hc
      rw [urlparse_parts, hsan]
      simp [hsch, hnl, hF, hQ, hPar, hcanon]

/-- Claim C7, amended: `AsyncCrawler._normalize_url` strips every trailing
slash, not exactly one: for every URL it equals `urlunsplit` of the lowered
scheme and netloc with the fully right-stripped path and empty query and
fragment (the `or "/"` substitution for an empty path is cancelled by the
strip), so `http://a.com/p//` maps to `http://a.com/p` and the root
`http://a.com/` maps to `http://a.com` without its slash. -/
theorem c7_amended_all_trailing_slashes_stripped :
    (∀ u : Str, normalizeUrlCrawler u =
        urlunsplitM (lowerS (urlparse u).scheme) (lowerS (urlparse u).netloc)
          (rstripSlash (urlparse u).path) [] []) ∧
    normalizeUrlCrawler "http://a.com/p//".toList = "http://a.com/p".toList ∧
    normalizeUrlCrawler "http://a.com/".toList = "http://a.com".toList :=
  ⟨normalizeUrlCrawler_eq, by decide, by decide⟩

set_option maxHeartbeats 1600000 in
/-- Claim C9, amended: `AsyncCrawler._normalize_url` is idempotent on every
URL string that contains no `';'` and whose parsed netloc is non-empty or
whose right-stripped path does not start with `"//"`. -/
theorem c9_amended_idempotent (u : Str) (hsemi : ';' ∉ u)
    (hdc : (urlparse u).netloc ≠ [] ∨ (rstripSlash (urlparse u).path).take 2 ≠ ['/', '/']) :
    normalizeUrlCrawler (normalizeUrlCrawler u) = normalizeUrlCrawler u := by
  rcases h1 : splitScheme (sanitizeUrl u) with ⟨sch, r1⟩
  rcases h2 : splitNetloc r1 with ⟨nl, r2⟩
  rcases h3 : splitOnChar '#' r2 with ⟨r3, frag⟩
  rcases h4 : splitOnChar '?' r3 with ⟨r4, q⟩
  have hmem3 : ∀ c ∈ r3, c ∈ sanitizeUrl u := by
    intro c hc
    have s2 : c ∈ r2 := by
      have hh := splitOnChar_fst_sub '#' r2
      rw [h3] at hh
      exact hh c hc
    have s3 : c ∈ r1 := by
      have hh := (splitNetloc_mem r1).2
      rw [h2] at hh
      exact hh c s2
    have hh := splitScheme_snd_sub (sanitizeUrl u)
    rw [h1] at hh
    exact hh c s3
  have hmem4 : ∀ c ∈ r4, c ∈ sanitizeUrl u := by
    intro c hc
    refine hmem3 c ?_
    have hh := splitOnChar_fst_sub '?' r3
    rw [h4] at hh
    exact hh c hc
  have h5 : splitParams r4 = (r4, []) :=
    splitParams_no_semi (fun hm => hsemi (mem_sanitizeUrl (hmem4 _ hm)))
  have hA : urlparse u = ⟨sch, nl, r4, [], q, frag⟩ := by
    rw [urlparse_parts u, h1]
    simp [h2, h3, h4, h5]
  have hdc2 : nl ≠ [] ∨ (rstripSlash r4).take 2 ≠ ['/', '/'] := by
    rw [hA] at hdc
    exact hdc
  have hschfacts :
      (sch = [] ∧ r1 = sanitizeUrl u ∧
        splitScheme (sanitizeUrl u) = ([], sanitizeUrl u)) ∨
      (sch ≠ [] ∧ isValidSchemeStr sch = true) := by
    rcases splitScheme_cases (sanitizeUrl u) with h | ⟨pre, rest, hx, hvld, h⟩
    · have h1c := h1
      rw [h] at h1c
      obtain ⟨he, hr⟩ := Prod.mk.inj h1c
      exact Or.inl ⟨he.symm, hr.symm, h⟩
    · have h1c := h1
      rw [h] at h1c
      obtain ⟨he, -⟩ := Prod.mk.inj h1c
      right
      obtain ⟨c0, t0, hpre, -⟩ := valid_head hvld
      constructor
      · rw [← he, hpre]
        simp [lowerS]
      · rw [← he]
        exact isValidSchemeStr_lowerS hvld
  have hnl_end : ∀ c ∈ nl, netlocEndB c = false := by
    have hh := splitNetloc_fst_no_end r1
    rw [h2] at hh
    exact fun c hc => hh c hc
  have hnl_mem : ∀ c ∈ nl, c ∈ sanitizeUrl u := by
    intro c hc
    have hh := (splitNetloc_mem r1).1
    rw [h2] at hh
    have s3 := hh c hc
    have hh2 := splitScheme_snd_sub (sanitizeUrl u)
    rw [h1] at hh2
    exact hh2 c s3
  have hup2 : urlparse (urlunsplitM (lowerS sch) (lowerS nl) (rstripSlash r4) [] []) =
      ⟨lowerS sch, lowerS nl, canonPathAdj (lowerS sch) (lowerS nl) (rstripSlash r4),
        [], [], []⟩ := by
    refine urlparse_unsplit _ _ _ (lowerS_idem sch) ?_ (lowerS_netlocEnd hnl_end)
      (lowerS_clean (fun c hc => sanitizeUrl_clean (hnl_mem c hc)))
      (fun c hc => sanitizeUrl_clean (hmem4 c (mem_rstripSlash hc))) ?_ ?_ ?_ ?_ ?_
    · rcases hschfacts with ⟨he, -, -⟩ | ⟨-, hv⟩
      · left
        rw [he]
        rfl
      · right
        exact isValidSchemeStr_lowerS hv
    · intro hm
      have hh := splitOnChar_fst_no '#' r2
      rw [h3] at hh
      apply hh
      have hh2 := splitOnChar_fst_sub '?' r3
      rw [h4] at hh2
      exact hh2 _ (mem_rstripSlash hm)
    · intro hm
      have hh := splitOnChar_fst_no '?' r3
      rw [h4] at hh
      exact hh (mem_rstripSlash hm)
    · exact fun hm => hsemi (mem_sanitizeUrl (hmem4 _ (mem_rstripSlash hm)))
    · intro hN0
      rcases hdc2 with hl | hr
      · exact absurd (by simpa [lowerS] using hN0) hl
      · exact hr
    · intro hN0 hS0
      have hsch0 : sch = [] := by simpa [lowerS] using hS0
      rcases hschfacts with ⟨-, hr1u, hsplit0⟩ | ⟨hne, -⟩
      swap
      · exact absurd hsch0 hne
      rcases splitNetloc_cases r1 with hcase | ⟨rest, hreq, hcase⟩
      · have h2c := h2
        rw [hcase] at h2c
        have hr2u : r2 = sanitizeUrl u := by
          rw [← (Prod.mk.inj h2c).2, hr1u]
        obtain ⟨t3, ht3⟩ := splitOnChar_fst_pre '#' r2
        rw [h3] at ht3
        have ht3a : r2 = r3 ++ t3 := ht3
        obtain ⟨t4, ht4⟩ := splitOnChar_fst_pre '?' r3
        rw [h4] at ht4
        have ht4a : r3 = r4 ++ t4 := ht4
        obtain ⟨t5, ht5⟩ := rstripSlash_pre r4
        have hu0P : sanitizeUrl u = rstripSlash r4 ++ (t5 ++ (t4 ++ t3)) := by
          conv_lhs => rw [← hr2u, ht3a, ht4a]
          conv_lhs => rw [ht5]
          simp [List.append_assoc]
        constructor
        · refine splitScheme_reject_pre (t := t5 ++ (t4 ++ t3)) ?_
          rw [← hu0P]
          exact hsplit0
        · intro c hc
          have hh : (sanitizeUrl u).head? = some c := by
            rcases hsP : rstripSlash r4 with _ | ⟨a, b⟩
            · rw [hsP] at hc
              simp at hc
            · rw [hsP, List.head?_cons] at hc
              rw [hu0P, hsP, List.cons_append, List.head?_cons]
              exact hc
          exact sanitizeUrl_head hh
      · have h2c := h2
        rw [hcase] at h2c
        have hr2d : r2 = rest.dropWhile (fun c => !netlocEndB c) := (Prod.mk.inj h2c).2.symm
        rcases hdw : rest.dropWhile (fun c => !netlocEndB c) with _ | ⟨d, t⟩
        · have hr20 : r2 = [] := by rw [hr2d, hdw]
          rw [hr20] at h3
          have h3c : (r3, frag) = ([], []) := by rw [← h3]; rfl
          obtain ⟨hr3, -⟩ := Prod.mk.inj h3c
          rw [hr3] at h4
          have h4c : (r4, q) = ([], []) := by rw [← h4]; rfl
          obtain ⟨hr4, -⟩ := Prod.mk.inj h4c
          rw [hr4]
          refine ⟨rfl, fun c hc => ?_⟩
          simp [rstripSlash] at hc
        · have hr2c : r2 = d :: t := by rw [hr2d, hdw]
          have hdend : netlocEndB d = true := by
            have hh := dropWhile_head_false hdw
            simpa using hh
          have hd3 : (d = '/' ∨ d = '?') ∨ d = '#' := by
            simpa [netlocEndB] using hdend
          rcases hd3 with (rfl | rfl) | rfl
          · rw [hr2c] at h3
            obtain ⟨w3, hw3⟩ := splitOnChar_fst_head '#' '/' t (by decide)
            rw [h3] at hw3
            have hr3 : r3 = '/' :: w3 := hw3
            rw [hr3] at h4
            obtain ⟨w4, hw4⟩ := splitOnChar_fst_head '?' '/' w3 (by decide)
            rw [h4] at hw4
            have hr4 : r4 = '/' :: w4 := hw4
            constructor
            · rcases hsP : rstripSlash r4 with _ | ⟨a, b⟩
              · rfl
              · have hne2 : rstripSlash r4 ≠ [] := by
                  rw [hsP]
                  exact List.cons_ne_nil _ _
                have hh := rstripSlash_head hne2
                rw [hsP, hr4] at hh
                simp only [List.head?_cons, Option.some.injEq] at hh
                subst hh
                exact splitScheme_reject_head rfl (by decide)
            · intro c hc
              have hne2 : rstripSlash r4 ≠ [] := by
                intro he
                rw [he] at hc
                simp at hc
              have hh := rstripSlash_head hne2
              rw [hh, hr4, List.head?_cons] at hc
              simp only [Option.some.injEq] at hc
              rw [← hc]
              decide
          · rw [hr2c] at h3
            obtain ⟨w3, hw3⟩ := splitOnChar_fst_head '#' '?' t (by decide)
            rw [h3] at hw3
            have hr3 : r3 = '?' :: w3 := hw3
            rw [hr3] at h4
            have h4c : (r4, q) = ([], w3) := by
              rw [← h4]
              exact splitOnChar_head '?' w3
            obtain ⟨hr4, -⟩ := Prod.mk.inj h4c
            rw [hr4]
            refine ⟨rfl, fun c hc => ?_⟩
            simp [rstripSlash] at hc
          · rw [hr2c] at h3
            have h3c : (r3, frag) = ([], t) := by
              rw [← h3]
              exact splitOnChar_head '#' t
            obtain ⟨hr3, -⟩ := Prod.mk.inj h3c
            rw [hr3] at h4
            have h4c : (r4, q) = ([], []) := by rw [← h4]; rfl
            obtain ⟨hr4, -⟩ := Prod.mk.inj h4c
            rw [hr4]
            refine ⟨rfl, fun c hc => ?_⟩
            simp [rstripSlash] at hc
  have hL : normalizeUrlCrawler u =
      urlunsplitM (lowerS sch) (lowerS nl) (rstripSlash r4) [] [] := by
    rw [normalizeUrlCrawler_eq, hA]
  rw [hL]
  rw [normalizeUrlCrawler_eq, hup2]
  show urlunsplitM (lowerS (lowerS sch)) (lowerS (lowerS nl))
      (rstripSlash (canonPathAdj (lowerS sch) (lowerS nl) (rstripSlash r4))) [] [] =
    urlunsplitM (lowerS sch) (lowerS nl) (rstripSlash r4) [] []
  rw [lowerS_idem, lowerS_idem]
  exact unsplit_canonAdj _ _ _ (rstripSlash_idem r4)

/-- Witness for the amended C9 theorem at the URL `http://Ex.COM/a/b/`. -/
theorem c9_amended_idempotent_witness :
    (';' ∉ "http://Ex.COM/a/b/".toList) ∧
    ((urlparse "http://Ex.COM/a/b/".toList).netloc ≠ [] ∨
      (rstripSlash (urlparse "http://Ex.COM/a/b/".toList).path).take 2 ≠ ['/', '/']) ∧
    normalizeUrlCrawler (normalizeUrlCrawler "http://Ex.COM/a/b/".toList) =
      normalizeUrlCrawler "http://Ex.COM/a/b/".toList :=
  ⟨by decide, by decide, c9_amended_idempotent _ (by decide) (by decide)⟩

end SiteScout
